import Mathlib

/-!
Verification of the import-path-converter resolution and rewrite engine.

The TypeScript sources are shallowly embedded over `List Char`:
strings become character lists, the `path` module functions
(`normalize`, `dirname`, `resolve`, `join`) are reimplemented for the
POSIX flavour Node.js uses, and the regex-based import locator as well
as the gitignore-style pattern compiler are embedded as executable
matchers whose behaviour follows the concrete regular expressions the
code builds.
-/

namespace IPC

/-- Shorthand: a JavaScript string is modelled as its list of characters. -/
def str (s : String) : List Char := s.data

/-- The character set matched by JavaScript `\s` (and removed by
`String.prototype.trim`): ASCII whitespace, NBSP, BOM and the Unicode
space separators / line terminators. -/
def jsWhitespace (c : Char) : Bool :=
  c = ' ' || c = '\t' || c = '\n' || c = '\r' ||
  c.val = 0x0b || c.val = 0x0c || c.val = 0xa0 || c.val = 0x1680 ||
  (0x2000 ≤ c.val && c.val ≤ 0x200a) ||
  c.val = 0x2028 || c.val = 0x2029 || c.val = 0x202f ||
  c.val = 0x205f || c.val = 0x3000 || c.val = 0xfeff

/-- JavaScript `\w`: ASCII letters, digits and underscore. -/
def jsWordChar (c : Char) : Bool :=
  (('a' ≤ c && c ≤ 'z') || ('A' ≤ c && c ≤ 'Z') || ('0' ≤ c && c ≤ '9') || c = '_')

/-- JavaScript line terminators, the characters `.` does not match
in a regex without the `s` flag. -/
def jsLineTerminator (c : Char) : Bool :=
  c = '\n' || c = '\r' || c.val = 0x2028 || c.val = 0x2029

/-- Case-insensitive character comparison, as used by a regex compiled
with the `i` flag. -/
def ciEq (a b : Char) : Bool := a.toLower = b.toLower

/-- `String.prototype.trim`. -/
def jsTrim (s : List Char) : List Char :=
  ((s.dropWhile jsWhitespace).reverse.dropWhile jsWhitespace).reverse

/-- `String.prototype.startsWith`. -/
def jsStartsWith (prefixStr s : List Char) : Bool :=
  prefixStr.isPrefixOf s

/-- `String.prototype.endsWith`. -/
def jsEndsWith (suffixStr s : List Char) : Bool :=
  suffixStr.isSuffixOf s

/-- `String.prototype.includes`. -/
def jsIncludes (needle s : List Char) : Bool :=
  decide (needle <:+: s)

/-- Substring slice `s.slice(a, b)` for `0 ≤ a ≤ b` (the only uses in
the embedded code). -/
def jsSlice (s : List Char) (a b : Nat) : List Char :=
  (s.take b).drop a

/-- An import path literal is relative when it starts with `./` or `../`
(the check both the parser passes and the resolver perform). -/
def isRelativeImport (p : List Char) : Bool :=
  jsStartsWith (str "./") p || jsStartsWith (str "../") p

/-- Segment processing of Node's `path.posix` `normalizeString`:
`""` and `"."` segments are dropped, `".."` pops the previous segment
when one is available, is kept when the path may climb above its root
(relative paths), and is dropped otherwise (absolute paths).  The
accumulator holds the kept segments in reverse order. -/
def normSegs (allowAboveRoot : Bool) : List (List Char) → List (List Char) → List (List Char)
  | acc, [] => acc.reverse
  | acc, seg :: rest =>
    if seg = [] || seg = str "." then normSegs allowAboveRoot acc rest
    else if seg = str ".." then
      match acc with
      | top :: accTail =>
        if top = str ".." then
          (if allowAboveRoot then normSegs allowAboveRoot (seg :: acc) rest
           else normSegs allowAboveRoot acc rest)
        else normSegs allowAboveRoot accTail rest
      | [] =>
        if allowAboveRoot then normSegs allowAboveRoot [seg] rest
        else normSegs allowAboveRoot [] rest
    else normSegs allowAboveRoot (seg :: acc) rest

/-- Node `path.normalize` (POSIX). -/
def pnormalize (p : List Char) : List Char :=
  if p = [] then str "."
  else
    let isAbs := jsStartsWith (str "/") p
    let trailingSep := jsEndsWith (str "/") p
    let body := List.intercalate (str "/") (normSegs (!isAbs) [] (p.splitOn '/'))
    let body1 := if body = [] && !isAbs then str "." else body
    let body2 := if body1 ≠ [] && trailingSep then body1 ++ str "/" else body1
    if isAbs then '/' :: body2 else body2

/-- Node `path.dirname` (POSIX): scan from the end, skip trailing
separators, skip the final segment, and cut just before the separator
found there; the first character is never examined. -/
def pdirname (p : List Char) : List Char :=
  if p = [] then str "."
  else
    let hasRoot := jsStartsWith (str "/") p
    let rev := (p.drop 1).reverse
    let afterName := (rev.dropWhile (· = '/')).dropWhile (· ≠ '/')
    if afterName = [] then (if hasRoot then str "/" else str ".")
    else if hasRoot && afterName.length = 1 then str "//"
    else p.take afterName.length

/-- The argument concatenation step of Node `path.resolve`: arguments
are joined right to left until an absolute one is found; the process
working directory, consulted only when neither argument is absolute, is
modelled as `/`. -/
def presolveCombined (dir p : List Char) : List Char :=
  if jsStartsWith (str "/") p then p
  else if p = [] then (if jsStartsWith (str "/") dir then dir else str "/" ++ dir)
  else if jsStartsWith (str "/") dir then dir ++ str "/" ++ p
  else str "/" ++ dir ++ str "/" ++ p

/-- Node `path.resolve` restricted to the two-argument calls the code
makes. -/
def presolve (dir p : List Char) : List Char :=
  '/' :: List.intercalate (str "/") (normSegs false [] ((presolveCombined dir p).splitOn '/'))

/-- Node `path.join` on two components: concatenate the non-empty
components with `/` and normalize. -/
def pjoin (a b : List Char) : List Char :=
  if a = [] && b = [] then str "."
  else if a = [] then pnormalize b
  else if b = [] then pnormalize a
  else pnormalize (a ++ str "/" ++ b)

/-! ## Path resolution (src/path-resolution/index.ts) -/

/-- One entry of the parsed `paths` configuration:
`{ alias, basePath, resolvedBase }`. -/
structure PathMapping where
  aliasPattern : List Char
  basePath : List Char
  resolvedBase : List Char
deriving DecidableEq, Repr

/-- `s.replace(/\/\*$/, '')`: strip one trailing `/*`. -/
def stripSlashStar (s : List Char) : List Char :=
  if jsEndsWith (str "/*") s then s.take (s.length - 2) else s

/-- A JavaScript `Map` with string keys, as an insertion-ordered
association list: `set` updates in place or appends, `get` finds. -/
def jsMapGet (k : List Char) (m : List (List Char × List Char)) : Option (List Char) :=
  (m.find? (fun e => e.1 = k)).map Prod.snd

/-- `Map.prototype.set`. -/
def jsMapSet (k v : List Char) (m : List (List Char × List Char)) : List (List Char × List Char) :=
  if (m.find? (fun e => e.1 = k)).isSome then
    m.map (fun e => if e.1 = k then (k, v) else e)
  else m ++ [(k, v)]

/-- `PathResolverState`: the forward mapping (alias prefix → list of
`PathMapping`s, in insertion order) plus the reverse `aliasLookup`
(clean resolved base → clean alias). -/
structure ResolverState where
  pathMappings : List (List Char × List PathMapping)
  aliasLookup : List (List Char × List Char)
deriving DecidableEq, Repr

/-- All mappings in the iteration order of the nested `for` loops. -/
def allMappings (pm : List (List Char × List PathMapping)) : List PathMapping :=
  pm.flatMap Prod.snd

/-- `createPathResolver`: copy the forward map and build `aliasLookup`;
an entry is overwritten when no alias is recorded yet (or the recorded
alias is the empty string) or when the base's length exceeds the length
of `aliasLookup.get(existingAlias) || ''` — a lookup of the alias string
itself used as a key. -/
def aliasStep (m : List (List Char × List Char)) (mapping : PathMapping) :
    List (List Char × List Char) :=
  let cleanResolvedBase := stripSlashStar mapping.resolvedBase
  let cleanAlias := stripSlashStar mapping.aliasPattern
  let overwrite :=
    match jsMapGet cleanResolvedBase m with
    | none => true
    | some ea =>
      ea = [] || cleanResolvedBase.length > ((jsMapGet ea m).getD []).length
  if overwrite then jsMapSet cleanResolvedBase cleanAlias m else m

def createPathResolver (pathMappings : List (List Char × List PathMapping)) : ResolverState :=
  ⟨pathMappings, (allMappings pathMappings).foldl aliasStep []⟩

/-- A mapping qualifies for a normalized candidate path when the path
starts with the mapping's normalized, `/*`-stripped resolved base. -/
def qualifies (normalizedPath : List Char) (mapping : PathMapping) : Bool :=
  jsStartsWith (pnormalize (stripSlashStar mapping.resolvedBase)) normalizedPath

/-- The length of a mapping's normalized, `/*`-stripped resolved base,
the quantity `findBestMatch` maximizes. -/
def baseLen (mapping : PathMapping) : Nat :=
  (pnormalize (stripSlashStar mapping.resolvedBase)).length

/-- One iteration of the `findBestMatch` loop: replace the best match
when the mapping qualifies and its base is strictly longer than the
best length seen. -/
def bestStep (normalizedPath : List Char) (acc : Option PathMapping × Nat)
    (mapping : PathMapping) : Option PathMapping × Nat :=
  if qualifies normalizedPath mapping && decide (baseLen mapping > acc.2)
  then (some mapping, baseLen mapping) else acc

/-- `findBestMatch`: normalize the candidate, iterate every mapping,
qualify on a string-prefix test against the normalized clean base, and
keep the first mapping whose base length strictly exceeds the best
length seen (initially 0). -/
def findBestMatch (state : ResolverState) (absolutePath : List Char) : Option PathMapping :=
  ((allMappings state.pathMappings).foldl (bestStep (pnormalize absolutePath)) (none, 0)).1

/-- `convertToAlias`: strip the mapping's clean base off the normalized
path, drop one leading `/` from the remainder, and append the remainder
(when non-empty) to the clean alias with `/`. -/
def convertToAlias (absolutePath : List Char) (mapping : PathMapping) : Option (List Char) :=
  let normalizedPath := pnormalize absolutePath
  let resolvedBase := pnormalize (stripSlashStar mapping.resolvedBase)
  if !jsStartsWith resolvedBase normalizedPath then none
  else
    let relativePart := normalizedPath.drop resolvedBase.length
    let cleanRelativePart :=
      if jsStartsWith (str "/") relativePart then relativePart.drop 1 else relativePart
    let aliasBase := stripSlashStar mapping.aliasPattern
    if cleanRelativePart = [] then some aliasBase
    else some (aliasBase ++ str "/" ++ cleanRelativePart)

/-- `ConversionResult`. -/
structure ConversionResult where
  originalImport : List Char
  convertedImport : Option (List Char)
  reason : List Char
deriving DecidableEq, Repr

/-- The single-quote character, written by code point. -/
def sq : Char := Char.ofNat 39

/-- The reason attached to a successful conversion:
`Converted using alias <quoted alias>`. -/
def convertedReason (aliasPattern : List Char) : List Char :=
  str "Converted using alias " ++ [sq] ++ aliasPattern ++ [sq]

/-- The reason attached to the empty-`fromFile` error path. -/
def emptyFromFileReason : List Char :=
  str "Error during conversion: fromFile parameter cannot be empty"

/-- `resolveImport` with the cache stripped out: the pure computation
performed on a cache miss.  The guard `if (!convertedImport)` is a JS
falsy test, so the empty string — produced when the stripped alias
pattern and the remainder are both empty — fails with
`Failed to convert to alias format` just like `null`. -/
def resolveImportPure (state : ResolverState) (importPath fromFile : List Char) :
    ConversionResult :=
  if !isRelativeImport importPath then
    ⟨importPath, none, str "Not a relative import"⟩
  else if fromFile = [] || jsTrim fromFile = [] then
    ⟨importPath, none, emptyFromFileReason⟩
  else
    let fromDir := pdirname fromFile
    let absolutePath := presolve fromDir importPath
    match findBestMatch state absolutePath with
    | none => ⟨importPath, none, str "No matching path alias found"⟩
    | some bestMatch =>
      match convertToAlias absolutePath bestMatch with
      | none => ⟨importPath, none, str "Failed to convert to alias format"⟩
      | some converted =>
        if converted = [] then ⟨importPath, none, str "Failed to convert to alias format"⟩
        else ⟨importPath, some converted, convertedReason bestMatch.aliasPattern⟩

/-! ## The memoization cache (`LRUCache` from src/performance) -/

/-- The LRU cache, behaviourally: entries most-recent-first plus a
capacity; `resolveCache` is created with capacity 1000. -/
structure LRU where
  entries : List (List Char × ConversionResult)
  capacity : Nat
deriving DecidableEq, Repr

/-- The module-level cache at program start. -/
def emptyCache : LRU := ⟨[], 1000⟩

/-- `LRUCache.get`: a hit moves the entry to the front. -/
def lruGet (key : List Char) (c : LRU) : Option ConversionResult × LRU :=
  match c.entries.find? (fun e => e.1 = key) with
  | none => (none, c)
  | some e => (some e.2, ⟨e :: c.entries.eraseP (fun e => decide (e.1 = key)), c.capacity⟩)

/-- `LRUCache.set`: update-and-move-to-front on a present key, else
evict the least recently used entry when at capacity and insert at the
front. -/
def lruSet (key : List Char) (val : ConversionResult) (c : LRU) : LRU :=
  if (c.entries.find? (fun e => e.1 = key)).isSome then
    ⟨(key, val) :: c.entries.eraseP (fun e => decide (e.1 = key)), c.capacity⟩
  else
    let es := if c.entries.length ≥ c.capacity then c.entries.dropLast else c.entries
    ⟨(key, val) :: es, c.capacity⟩

/-- The cache key `` `${fromFile}:${importPath}` ``. -/
def cacheKey (importPath fromFile : List Char) : List Char :=
  fromFile ++ str ":" ++ importPath

/-- `resolveImport` with the module-global `resolveCache` made an
explicit argument and result.  Truthy conversions and the
empty-`fromFile` error are stored before returning; the
`No matching path alias found` and `Failed to convert to alias format`
outcomes — the latter reached both when `convertToAlias` returns `null`
and when it returns the falsy empty string — return without storing. -/
def resolveImportS (state : ResolverState) (importPath fromFile : List Char) (cache : LRU) :
    ConversionResult × LRU :=
  if !isRelativeImport importPath then
    (⟨importPath, none, str "Not a relative import"⟩, cache)
  else
    let key := cacheKey importPath fromFile
    match lruGet key cache with
    | (some cached, cache1) => (cached, cache1)
    | (none, cache1) =>
      if fromFile = [] || jsTrim fromFile = [] then
        let result : ConversionResult := ⟨importPath, none, emptyFromFileReason⟩
        (result, lruSet key result cache1)
      else
        let fromDir := pdirname fromFile
        let absolutePath := presolve fromDir importPath
        match findBestMatch state absolutePath with
        | none => (⟨importPath, none, str "No matching path alias found"⟩, cache1)
        | some bestMatch =>
          match convertToAlias absolutePath bestMatch with
          | none => (⟨importPath, none, str "Failed to convert to alias format"⟩, cache1)
          | some converted =>
            if converted = [] then
              (⟨importPath, none, str "Failed to convert to alias format"⟩, cache1)
            else
              let result : ConversionResult :=
                ⟨importPath, some converted, convertedReason bestMatch.aliasPattern⟩
              (result, lruSet key result cache1)

/-- Run a sequence of `resolveImport` calls (each call may use its own
resolver state) against the shared cache, collecting the results. -/
def runCalls : List (ResolverState × List Char × List Char) → LRU →
    List ConversionResult × LRU
  | [], cache => ([], cache)
  | (st, p, f) :: rest, cache =>
    let (r, cache1) := resolveImportS st p f cache
    let (rs, cache2) := runCalls rest cache1
    (r :: rs, cache2)

/-! ## Import parsing (src/import-parsing/index.ts)

The seven regular expressions used by the parse passes are built from
concatenations of literals, greedy character-class repetitions and a
quoted capture group.  In each of them every greedy repetition is
followed by a character its class excludes, so the backtracking regex
engine and the straight greedy matcher below find exactly the same
matches. -/

/-- The backtick character, written by code point. -/
def bt : Char := Char.ofNat 96

/-- Left and right curly braces, written by code point. -/
def lbrace : Char := Char.ofNat 123

def rbrace : Char := Char.ofNat 125

/-- A quote as matched by the class `` ['"`] ``. -/
def isQuote (c : Char) : Bool := c = sq || c = '"' || c = bt

/-- Match a literal string, returning the rest. -/
def matchLit : List Char → List Char → Option (List Char)
  | [], s => some s
  | _ :: _, [] => none
  | c :: cs, d :: ds => if c = d then matchLit cs ds else none

/-- Match a single character. -/
def matchChar (c : Char) : List Char → Option (List Char)
  | [] => none
  | d :: ds => if d = c then some ds else none

/-- Greedy `+` over a character class. -/
def many1 (p : Char → Bool) : List Char → Option (List Char)
  | [] => none
  | c :: cs => if p c then some (cs.dropWhile p) else none

/-- Greedy `*` over a character class. -/
def many0 (p : Char → Bool) (s : List Char) : List Char := s.dropWhile p

/-- `` ['"`]([^'"`]+)['"`] ``: an opening quote, a non-empty run free of
all three quote characters (captured), and any closing quote. -/
def quoted : List Char → Option (List Char × List Char)
  | [] => none
  | c :: cs =>
    if isQuote c then
      match cs.takeWhile (fun d => !isQuote d), cs.dropWhile (fun d => !isQuote d) with
      | [], _ => none
      | _, [] => none
      | path, _ :: ds => some (path, ds)
    else none

/-- `ES6_NAMED_IMPORT`. -/
def matchNamed (s : List Char) : Option (List Char × List Char) := do
  let s ← matchLit (str "import") s
  let s ← many1 jsWhitespace s
  let s ← matchChar lbrace s
  let s := many0 (fun c => c ≠ rbrace) s
  let s ← matchChar rbrace s
  let s ← many1 jsWhitespace s
  let s ← matchLit (str "from") s
  let s ← many1 jsWhitespace s
  quoted s

/-- `ES6_DEFAULT_IMPORT`. -/
def matchDefault (s : List Char) : Option (List Char × List Char) := do
  let s ← matchLit (str "import") s
  let s ← many1 jsWhitespace s
  let s ← many1 jsWordChar s
  let s ← many1 jsWhitespace s
  let s ← matchLit (str "from") s
  let s ← many1 jsWhitespace s
  quoted s

/-- `ES6_NAMESPACE_IMPORT`. -/
def matchNamespace (s : List Char) : Option (List Char × List Char) := do
  let s ← matchLit (str "import") s
  let s ← many1 jsWhitespace s
  let s ← matchChar '*' s
  let s ← many1 jsWhitespace s
  let s ← matchLit (str "as") s
  let s ← many1 jsWhitespace s
  let s ← many1 jsWordChar s
  let s ← many1 jsWhitespace s
  let s ← matchLit (str "from") s
  let s ← many1 jsWhitespace s
  quoted s

/-- `ES6_MIXED_IMPORT`. -/
def matchMixed (s : List Char) : Option (List Char × List Char) := do
  let s ← matchLit (str "import") s
  let s ← many1 jsWhitespace s
  let s ← many1 jsWordChar s
  let s := many0 jsWhitespace s
  let s ← matchChar ',' s
  let s := many0 jsWhitespace s
  let s ← matchChar lbrace s
  let s := many0 (fun c => c ≠ rbrace) s
  let s ← matchChar rbrace s
  let s ← many1 jsWhitespace s
  let s ← matchLit (str "from") s
  let s ← many1 jsWhitespace s
  quoted s

/-- `ES6_IMPORT_SIDE_EFFECT`. -/
def matchSideEffect (s : List Char) : Option (List Char × List Char) := do
  let s ← matchLit (str "import") s
  let s ← many1 jsWhitespace s
  quoted s

/-- `COMMONJS_REQUIRE`. -/
def matchRequire (s : List Char) : Option (List Char × List Char) := do
  let s ← matchLit (str "require") s
  let s := many0 jsWhitespace s
  let s ← matchChar '(' s
  let s := many0 jsWhitespace s
  let (path, s) ← quoted s
  let s := many0 jsWhitespace s
  let s ← matchChar ')' s
  pure (path, s)

/-- `DYNAMIC_IMPORT`. -/
def matchDynamic (s : List Char) : Option (List Char × List Char) := do
  let s ← matchLit (str "import") s
  let s := many0 jsWhitespace s
  let s ← matchChar '(' s
  let s := many0 jsWhitespace s
  let (path, s) ← quoted s
  let s := many0 jsWhitespace s
  let s ← matchChar ')' s
  pure (path, s)

/-- A raw `exec` result: matched text, captured path and offsets. -/
structure RawMatch where
  fullMatch : List Char
  path : List Char
  startIndex : Nat
  endIndex : Nat
deriving DecidableEq, Repr

/-- The `while (pattern.exec(content))` loop: try the pattern at every
index in order; on a match record it and continue after its end.  Each
step consumes at least one character, so the `fuel` argument, an upper
bound on the remaining input length, never runs out when the wrapper
supplies `content.length`. -/
def scanAux (m : List Char → Option (List Char × List Char)) :
    Nat → List Char → Nat → List RawMatch
  | _, [], _ => []
  | 0, _ :: _, _ => []
  | fuel + 1, c :: cs, off =>
    match m (c :: cs) with
    | some (path, rest) =>
      if rest.length < (c :: cs).length then
        let len := (c :: cs).length - rest.length
        ⟨(c :: cs).take len, path, off, off + len⟩ :: scanAux m fuel rest (off + len)
      else scanAux m fuel cs (off + 1)
    | none => scanAux m fuel cs (off + 1)

/-- Scan a whole content string from offset 0. -/
def scanPattern (m : List Char → Option (List Char × List Char)) (content : List Char) :
    List RawMatch :=
  scanAux m content.length content 0

/-- `ImportType`. -/
inductive ImportType
  | es6
  | commonjs
  | dynamic
deriving DecidableEq, Repr

/-- `ImportMatch`. -/
structure ImportMatch where
  fullMatch : List Char
  importPath : List Char
  startIndex : Nat
  endIndex : Nat
  type : ImportType
deriving DecidableEq, Repr

/-- Wrap a raw regex match as an `ImportMatch`. -/
def rawToMatch (t : ImportType) (r : RawMatch) : ImportMatch :=
  ⟨r.fullMatch, r.path, r.startIndex, r.endIndex, t⟩

/-- The five ES6 pattern passes, in the order `parseES6Imports` runs
them; each pass pushes only matches whose literal starts with `./` or
`../`. -/
def parseES6Imports (content : List Char) : List ImportMatch :=
  ([matchNamed, matchDefault, matchNamespace, matchMixed, matchSideEffect].flatMap
    (fun m => scanPattern m content)).filterMap
    (fun r => if isRelativeImport r.path then some (rawToMatch .es6 r) else none)

/-- `parseCommonJSImports`. -/
def parseCommonJSImports (content : List Char) : List ImportMatch :=
  (scanPattern matchRequire content).filterMap
    (fun r => if isRelativeImport r.path then some (rawToMatch .commonjs r) else none)

/-- `parseDynamicImports`. -/
def parseDynamicImports (content : List Char) : List ImportMatch :=
  (scanPattern matchDynamic content).filterMap
    (fun r => if isRelativeImport r.path then some (rawToMatch .dynamic r) else none)

/-- `validateImportPath`: trim, reject the empty result and interior
line breaks. -/
def validateImportPath (p : List Char) : Option (List Char) :=
  let trimmed := jsTrim p
  if trimmed = [] || jsIncludes (str "\n") trimmed || jsIncludes (str "\r") trimmed then none
  else some trimmed

/-- Stable ascending insertion by `startIndex`, the behaviour of
`validMatches.sort((a, b) => a.startIndex - b.startIndex)`. -/
def insAsc (m : ImportMatch) : List ImportMatch → List ImportMatch
  | [] => [m]
  | n :: ns => if m.startIndex ≤ n.startIndex then m :: n :: ns else n :: insAsc m ns

def insertionSortAsc : List ImportMatch → List ImportMatch
  | [] => []
  | m :: ms => insAsc m (insertionSortAsc ms)

/-- The dedupe filter: drop an element exactly when the element before
it in the sorted array has the same `(startIndex, importPath)` key. -/
def dedupeAux (prev : ImportMatch) : List ImportMatch → List ImportMatch
  | [] => []
  | m :: ms =>
    if m.startIndex = prev.startIndex && m.importPath = prev.importPath
    then dedupeAux m ms
    else m :: dedupeAux m ms

def dedupeAdj : List ImportMatch → List ImportMatch
  | [] => []
  | m :: ms => m :: dedupeAux m ms

/-- `findImports`: run the three parse families (the regex passes never
throw, so the `safeParseImports` recovery path is the identity),
validate and trim every literal, sort ascending by start offset, and
deduplicate adjacent `(startIndex, importPath)` repeats. -/
def findImports (content : List Char) : List ImportMatch :=
  let allM :=
    parseES6Imports content ++ parseCommonJSImports content ++ parseDynamicImports content
  let validMatches := allM.filterMap
    (fun m => (validateImportPath m.importPath).map (fun vp => { m with importPath := vp }))
  dedupeAdj (insertionSortAsc validMatches)

/-! ## File processing (src/file-processing/file-processor.ts) -/

/-- Index of the first occurrence of `pat` in `s` (the search behind
`String.prototype.replace` with a string pattern). -/
def findSubstr (s pat : List Char) : Option Nat :=
  (List.range (s.length + 1)).find? (fun i => jsStartsWith pat (s.drop i))

/-- Expansion of the special replacement patterns `$$`, `$&`, `` $` ``
and the after-match variant in a `String.prototype.replace` replacement
string; other `$` sequences stay literal. -/
def expandRepl (before matched after : List Char) : List Char → List Char
  | [] => []
  | '$' :: c :: rest =>
    if c = '$' then '$' :: expandRepl before matched after rest
    else if c = '&' then matched ++ expandRepl before matched after rest
    else if c = bt then before ++ expandRepl before matched after rest
    else if c = sq then after ++ expandRepl before matched after rest
    else '$' :: c :: expandRepl before matched after rest
  | c :: rest => c :: expandRepl before matched after rest

/-- `s.replace(pat, rep)` with string arguments: replace the first
occurrence only. -/
def jsReplaceFirst (s pat rep : List Char) : List Char :=
  match findSubstr s pat with
  | none => s
  | some i =>
    let before := s.take i
    let after := s.drop (i + pat.length)
    before ++ expandRepl before pat after rep ++ after

/-- `replaceImportPathInStatement`: detect the quote character by
substring search (single, then double, then backtick, defaulting to
double) and replace the quoted original path once. -/
def replaceImportPathInStatement (fullMatch originalPath newPath : List Char) : List Char :=
  let quoteChar :=
    if jsIncludes ([sq] ++ originalPath ++ [sq]) fullMatch then sq
    else if jsIncludes (['"'] ++ originalPath ++ ['"']) fullMatch then '"'
    else if jsIncludes ([bt] ++ originalPath ++ [bt]) fullMatch then bt
    else '"'
  let quotedOriginal := [quoteChar] ++ originalPath ++ [quoteChar]
  let quotedNew := [quoteChar] ++ newPath ++ [quoteChar]
  jsReplaceFirst fullMatch quotedOriginal quotedNew

/-- The conversion map built by `replaceImports`: every conversion with
a truthy (non-null, non-empty) `convertedImport` is stored under its
`originalImport`; later entries overwrite earlier ones. -/
def buildConversionMap (conversions : List ConversionResult) :
    List (List Char × List Char) :=
  conversions.foldl
    (fun m c =>
      match c.convertedImport with
      | some conv => if conv = [] then m else jsMapSet c.originalImport conv m
      | none => m)
    []

/-- Stable descending insertion by `startIndex`, the behaviour of
`[...imports].sort((a, b) => b.startIndex - a.startIndex)`. -/
def insDesc (m : ImportMatch) : List ImportMatch → List ImportMatch
  | [] => [m]
  | n :: ns => if n.startIndex ≤ m.startIndex then m :: n :: ns else n :: insDesc m ns

def insertionSortDesc : List ImportMatch → List ImportMatch
  | [] => []
  | m :: ms => insDesc m (insertionSortDesc ms)

/-- One replacement step of the `replaceImports` loop. -/
def replaceStep (conversionMap : List (List Char × List Char))
    (modifiedContent : List Char) (im : ImportMatch) : List Char :=
  match jsMapGet im.importPath conversionMap with
  | some convertedImport =>
    jsSlice modifiedContent 0 im.startIndex ++
      replaceImportPathInStatement im.fullMatch im.importPath convertedImport ++
      modifiedContent.drop im.endIndex
  | none => modifiedContent

/-- `replaceImports`: build the conversion map, return the content
unchanged when it is empty, otherwise sort the matches by start offset
descending and splice each rewritten statement over its span. -/
def replaceImports (content : List Char) (imports : List ImportMatch)
    (conversions : List ConversionResult) : List Char :=
  let conversionMap := buildConversionMap conversions
  if conversionMap = [] then content
  else (insertionSortDesc imports).foldl (replaceStep conversionMap) content

/-! ## Ignore handling (src/ignore-handling/ignore-manager.ts)

`compilePatterns` builds a regex source string by textual substitution
and wraps it in one of three anchor shapes.  The embedding performs the
same substitutions on the character list, parses the resulting source
into glob tokens, and interprets those tokens with the semantics of the
generated regular expression (`i` flag included). -/

/-- `String.prototype.replace` with a global fixed-string pattern:
non-overlapping replacement, left to right.  The `fuel` argument is an
upper bound on the remaining input length (each step consumes at least
one character for a non-empty pattern), so `jsReplaceAll` below, which
supplies `s.length`, computes the full replacement. -/
def jsReplaceAllF (pat rep : List Char) : Nat → List Char → List Char
  | _, [] => []
  | 0, s => s
  | fuel + 1, c :: cs =>
    if pat ≠ [] && jsStartsWith pat (c :: cs) then
      rep ++ jsReplaceAllF pat rep fuel ((c :: cs).drop pat.length)
    else c :: jsReplaceAllF pat rep fuel cs

def jsReplaceAll (pat rep s : List Char) : List Char :=
  jsReplaceAllF pat rep s.length s

/-- The character class `[.+^${}()|[\]\\]` escaped by `compilePatterns`. -/
def regexMetaChar (c : Char) : Bool :=
  c = '.' || c = '+' || c = '^' || c = '$' || c = lbrace || c = rbrace ||
  c = '(' || c = ')' || c = '|' || c = '[' || c = ']' || c = '\\'

/-- `.replace(/[.+^${}()|[\]\\]/g, '\\$&')`. -/
def escapeMeta (s : List Char) : List Char :=
  s.flatMap (fun c => if regexMetaChar c then ['\\', c] else [c])

/-- The placeholder substitution chain of `compilePatterns`. -/
def substitutedBody (p : List Char) : List Char :=
  let r := jsReplaceAll (str "**") (str "__DOUBLESTAR__") p
  let r := jsReplaceAll (str "*") (str "__SINGLESTAR__") r
  let r := jsReplaceAll (str "?") (str "__QUESTION__") r
  let r := escapeMeta r
  let r := jsReplaceAll (str "__DOUBLESTAR__") (str ".*") r
  let r := jsReplaceAll (str "__SINGLESTAR__") (str "[^/]*") r
  jsReplaceAll (str "__QUESTION__") (str "[^/]") r

/-- Tokens of the generated regex body: a literal character, `.*`
(from `**`), `[^/]*` (from `*`), `[^/]` (from `?`) and the optional
directory tail `(/.*)?` appended for patterns ending in `/`. -/
inductive GTok
  | lit (c : Char)
  | anySeq
  | anySeqNoSlash
  | oneNoSlash
  | optDirTail
deriving DecidableEq, Repr

/-- Parse the generated regex source back into tokens.  In the
generated source every metacharacter of the original pattern is
escaped, so the five non-literal shapes below are exactly the ones the
substitutions produce. -/
def parseBody : List Char → List GTok
  | [] => []
  | '\\' :: c :: rest => .lit c :: parseBody rest
  | ['\\'] => []
  | '.' :: '*' :: rest => .anySeq :: parseBody rest
  | '(' :: '/' :: '.' :: '*' :: ')' :: '?' :: rest => .optDirTail :: parseBody rest
  | '[' :: '^' :: '/' :: ']' :: '*' :: rest => .anySeqNoSlash :: parseBody rest
  | '[' :: '^' :: '/' :: ']' :: rest => .oneNoSlash :: parseBody rest
  | c :: rest => .lit c :: parseBody rest

/-- The three anchor shapes a compiled pattern can take, plus the
never-matching regex `$.^` used for blank, `**` and `***` patterns. -/
inductive IgnoreRegex
  | nomatch
  | anchored (toks : List GTok)
  | seg (toks : List GTok)
  | segPrefix (toks : List GTok)
deriving DecidableEq, Repr

/-- Entire-string match of a token list, with the `i` flag semantics on
literals and the newline behaviour of `.` and `[^/]`.  Every recursive
call shrinks `toks.length + s.length`, so the wrapper below, which
supplies that sum plus one as fuel, computes the full backtracking
match. -/
def gmatchF : Nat → List GTok → List Char → Bool
  | 0, _, _ => false
  | fuel + 1, toks, s =>
    match toks, s with
    | [], [] => true
    | [], _ :: _ => false
    | .lit _ :: _, [] => false
    | .lit c :: ts, d :: ds => ciEq c d && gmatchF fuel ts ds
    | .oneNoSlash :: _, [] => false
    | .oneNoSlash :: ts, d :: ds => decide (d ≠ '/') && gmatchF fuel ts ds
    | .anySeqNoSlash :: ts, [] => gmatchF fuel ts []
    | .anySeqNoSlash :: ts, d :: ds =>
      gmatchF fuel ts (d :: ds) || (decide (d ≠ '/') && gmatchF fuel (.anySeqNoSlash :: ts) ds)
    | .anySeq :: ts, [] => gmatchF fuel ts []
    | .anySeq :: ts, d :: ds =>
      gmatchF fuel ts (d :: ds) || (!jsLineTerminator d && gmatchF fuel (.anySeq :: ts) ds)
    | .optDirTail :: ts, [] => gmatchF fuel ts []
    | .optDirTail :: ts, d :: ds =>
      gmatchF fuel ts (d :: ds) || (decide (d = '/') && gmatchF fuel (.anySeq :: ts) ds)

def gmatch (toks : List GTok) (s : List Char) : Bool :=
  gmatchF (toks.length + s.length + 1) toks s

/-- The `(^|/)` prefix: try the body at every position that follows a
`/`. -/
def segTestAux (toks : List GTok) : List Char → Bool
  | [] => false
  | c :: cs => (decide (c = '/') && gmatch toks cs) || segTestAux toks cs

/-- `RegExp.prototype.test` for the three generated anchor shapes. -/
def rtest (r : IgnoreRegex) (s : List Char) : Bool :=
  match r with
  | .nomatch => false
  | .anchored toks => gmatch toks s
  | .seg toks => gmatch toks s || segTestAux toks s
  | .segPrefix toks =>
    gmatch (toks ++ [.optDirTail]) s || segTestAux (toks ++ [.optDirTail]) s

/-- Compile one pattern line, following `compilePatterns` step by step.
The generated source is always a valid regex (everything else is
escaped), so the `catch` branch of the source is unreachable. -/
def cleanLine (pattern : List Char) : List Char :=
  if jsStartsWith (str "!") pattern then pattern.drop 1 else pattern

def compileOne (pattern : List Char) : IgnoreRegex :=
  let cleanPattern := cleanLine pattern
  if jsTrim cleanPattern = [] || cleanPattern = str "**" || cleanPattern = str "***" then
    .nomatch
  else
    let isAbsolutePattern := jsStartsWith (str "/") cleanPattern
    let afterAbs := if isAbsolutePattern then cleanPattern.drop 1 else cleanPattern
    let body := substitutedBody afterAbs
    let body1 :=
      if jsEndsWith (str "/") cleanPattern
      then body.take (body.length - 1) ++ str "(/.*)?"
      else body
    let toks := parseBody body1
    if isAbsolutePattern then .anchored toks
    else if jsIncludes (str "/") cleanPattern then .seg toks
    else .segPrefix toks

/-- One compiled entry: the original pattern text (consulted for the
negation flag and reported on a match) next to its compiled regex,
mirroring the index-aligned `patterns` / `originalPatterns` arrays. -/
structure IgnorePattern where
  original : List Char
  regex : IgnoreRegex
deriving DecidableEq, Repr

/-- `IgnoreState`. -/
structure IgnoreState where
  patterns : List IgnorePattern
deriving DecidableEq, Repr

/-- `compilePatterns` over a whole pattern list. -/
def compileIgnorePatterns (lines : List (List Char)) : IgnoreState :=
  ⟨lines.map (fun p => ⟨p, compileOne p⟩)⟩

/-- `IgnoreCheckResult`. -/
structure IgnoreCheckResult where
  shouldIgnore : Bool
  matchedPattern : Option (List Char)
  reason : List Char
deriving DecidableEq, Repr

/-- The result record built when pattern `p` is the match. -/
def matchResult (p : List Char) : IgnoreCheckResult :=
  if jsStartsWith (str "!") p then
    ⟨false, some p, str "Negation pattern \"" ++ p ++ str "\" matched"⟩
  else
    ⟨true, some p, str "Pattern \"" ++ p ++ str "\" matched"⟩

/-- The path preprocessing of `shouldIgnore`: backslashes normalized to
`/` and one leading `/` stripped. -/
def cleanIgnorePath (filePath : List Char) : List Char :=
  let normalizedPath := filePath.map (fun c => if c = '\\' then '/' else c)
  if jsStartsWith (str "/") normalizedPath then normalizedPath.drop 1 else normalizedPath

/-- `shouldIgnore`: normalize backslashes, strip one leading `/`, test
every pattern in order and let the last match decide. -/
def shouldIgnore (state : IgnoreState) (filePath : List Char) : IgnoreCheckResult :=
  let cleanPath := cleanIgnorePath filePath
  let lastMatch := state.patterns.foldl
    (fun acc p => if rtest p.regex cleanPath then some (matchResult p.original) else acc)
    none
  match lastMatch with
  | some r => r
  | none => ⟨false, none, str "No ignore patterns matched"⟩

/-! # Theorems -/

/-! ## Last-match-wins ignore semantics (C8, C10) -/

/-- A fold that overwrites its accumulator on every element passing a
test computes the image of the last passing element. -/
theorem foldl_if_lastFilter {α β : Type} (f : α → Bool) (g : α → β) :
    ∀ (l : List α) (init : Option β),
      l.foldl (fun acc p => if f p then some (g p) else acc) init
        = ((l.filter f).getLast?).elim init (fun p => some (g p))
  | [], _ => rfl
  | a :: l, init => by
    simp only [List.foldl_cons, List.filter_cons]
    rw [foldl_if_lastFilter f g l]
    by_cases hfa : f a = true
    · simp only [hfa, if_true, List.getLast?_cons]
      cases h2 : (l.filter f).getLast? with
      | none => simp [h2]
      | some p => simp [h2]
    · simp [hfa]

/-- `shouldIgnore` over a compiled pattern list equals the last-match
rule applied to the lines whose compiled regex accepts the clean path. -/
theorem shouldIgnore_eq_lastFilter (lines : List (List Char)) (filePath : List Char) :
    shouldIgnore (compileIgnorePatterns lines) filePath =
      ((lines.filter (fun q => rtest (compileOne q) (cleanIgnorePath filePath))).getLast?).elim
        ⟨false, none, str "No ignore patterns matched"⟩ matchResult := by
  unfold shouldIgnore compileIgnorePatterns
  simp only [List.foldl_map]
  rw [foldl_if_lastFilter (fun q => rtest (compileOne q) (cleanIgnorePath filePath)) matchResult]
  cases (lines.filter (fun q => rtest (compileOne q) (cleanIgnorePath filePath))).getLast? with
  | none => rfl
  | some p => rfl

/-- C8: for every compiled ignore state and candidate path (with
backslashes normalized to `/` and a leading `/` stripped by
`cleanIgnorePath`), `shouldIgnore` reports the file ignored iff the
last pattern in declaration order whose compiled regex matches the
clean path is a non-negation pattern; a last-matching negation pattern,
or no matching pattern, reports not ignored.  With patterns
`["*.log", "!important.log"]`, `error.log` is ignored and
`important.log` is not; with `"node_modules/**"`,
`node_modules/pkg/index.js` is ignored and
`src/node_modules_backup/index.js` is not. -/
theorem claim_C8_shouldIgnore_lastMatchWins :
    (∀ (lines : List (List Char)) (filePath : List Char),
      ((shouldIgnore (compileIgnorePatterns lines) filePath).shouldIgnore = true ↔
        ∃ p, (lines.filter (fun q => rtest (compileOne q) (cleanIgnorePath filePath))).getLast?
              = some p ∧ jsStartsWith (str "!") p = false)) ∧
    (shouldIgnore (compileIgnorePatterns [str "*.log", str "!important.log"])
      (str "error.log")).shouldIgnore = true ∧
    (shouldIgnore (compileIgnorePatterns [str "*.log", str "!important.log"])
      (str "important.log")).shouldIgnore = false ∧
    (shouldIgnore (compileIgnorePatterns [str "node_modules/**"])
      (str "node_modules/pkg/index.js")).shouldIgnore = true ∧
    (shouldIgnore (compileIgnorePatterns [str "node_modules/**"])
      (str "src/node_modules_backup/index.js")).shouldIgnore = false := by
  refine ⟨?_, by decide, by decide, by decide, by decide⟩
  intro lines filePath
  rw [shouldIgnore_eq_lastFilter]
  cases h : (lines.filter
      (fun q => rtest (compileOne q) (cleanIgnorePath filePath))).getLast? with
  | none => simp
  | some p =>
    simp only [Option.elim, Option.some.injEq]
    unfold matchResult
    by_cases hneg : jsStartsWith (str "!") p = true
    · rw [if_pos hneg]
      constructor
      · intro hcontra
        exact absurd hcontra (by simp)
      · rintro ⟨q, hq, hq2⟩
        rw [← hq] at hq2
        rw [hneg] at hq2
        exact absurd hq2 (by simp)
    · rw [if_neg hneg]
      refine ⟨fun _ => ⟨p, rfl, eq_false_of_ne_true hneg⟩, fun _ => rfl⟩

/-- C10: a pattern line that is exactly `**` or `***`, or whose text
after removing a leading `!` is blank, compiles to the never-matching
regex `$.^`: its predicate rejects every path, and `shouldIgnore` never
reports such a line as the matched pattern. -/
theorem claim_C10_doubleStar_matchesNothing :
    ∀ (line : List Char),
      (jsTrim (cleanLine line) = [] ∨ cleanLine line = str "**" ∨ cleanLine line = str "***") →
      (∀ path, rtest (compileOne line) path = false) ∧
      (∀ (lines : List (List Char)) (filePath : List Char),
        (shouldIgnore (compileIgnorePatterns lines) filePath).matchedPattern ≠ some line) := by
  intro line hbare
  have hno : compileOne line = .nomatch := by
    unfold compileOne
    rcases hbare with h | h | h <;> simp [h]
  refine ⟨fun path => by rw [hno]; rfl, ?_⟩
  intro lines filePath
  rw [shouldIgnore_eq_lastFilter]
  cases h : (lines.filter
      (fun q => rtest (compileOne q) (cleanIgnorePath filePath))).getLast? with
  | none => simp
  | some p =>
    simp only [Option.elim]
    intro hmp
    have hp : p = line := by
      unfold matchResult at hmp
      by_cases hneg : jsStartsWith (str "!") p = true
      · rw [if_pos hneg] at hmp
        exact Option.some.inj hmp
      · rw [if_neg hneg] at hmp
        exact Option.some.inj hmp
    have hmem : p ∈ lines.filter
        (fun q => rtest (compileOne q) (cleanIgnorePath filePath)) :=
      List.mem_of_mem_getLast? h
    have hrt := (List.mem_filter.mp hmem).2
    rw [hp, hno] at hrt
    exact absurd hrt (by simp [rtest])

/-- Witness for C10 at the bare line `**`. -/
theorem claim_C10_doubleStar_matchesNothing_witness :
    (jsTrim (cleanLine (str "**")) = [] ∨ cleanLine (str "**") = str "**" ∨
      cleanLine (str "**") = str "***") ∧
    rtest (compileOne (str "**")) (str "node_modules/index.js") = false :=
  ⟨by decide,
    (claim_C10_doubleStar_matchesNothing (str "**") (by decide)).1 (str "node_modules/index.js")⟩

/-! ## Longest-prefix match (C1) -/

/-- `path.normalize` never returns the empty string. -/
theorem pnormalize_ne_nil (p : List Char) : pnormalize p ≠ [] := by
  unfold pnormalize
  split
  · decide
  next hp =>
    by_cases habs : jsStartsWith (str "/") p = true
    · simp [habs]
    · simp only [habs, Bool.not_false, Bool.false_eq_true, if_false]
      by_cases hb : List.intercalate (str "/") (normSegs true [] (p.splitOn '/')) = []
      · by_cases ht : jsEndsWith (str "/") p = true <;> simp [hb, ht] <;> decide
      · by_cases ht : jsEndsWith (str "/") p = true <;> simp [hb, ht]

/-- Characterization of the `findBestMatch` fold: either no element
beats the incoming threshold and the accumulator survives, or the list
splits around the final winner — a qualifying mapping strictly longer
than the threshold, strictly longer than every earlier qualifier and at
least as long as every later one. -/
theorem bestFold_char (np : List Char) :
    ∀ (ms : List PathMapping) (b : Option PathMapping) (bl : Nat),
      (ms.foldl (bestStep np) (b, bl) = (b, bl) ∧
        ∀ m ∈ ms, qualifies np m = true → baseLen m ≤ bl) ∨
      (∃ l1 m l2, ms = l1 ++ m :: l2 ∧ qualifies np m = true ∧ bl < baseLen m ∧
        (∀ m2 ∈ l1, qualifies np m2 = true → baseLen m2 < baseLen m) ∧
        (∀ m2 ∈ l2, qualifies np m2 = true → baseLen m2 ≤ baseLen m) ∧
        ms.foldl (bestStep np) (b, bl) = (some m, baseLen m))
  | [], b, bl => Or.inl ⟨rfl, by simp⟩
  | m :: ms, b, bl => by
    simp only [List.foldl_cons]
    by_cases hc : (qualifies np m && decide (baseLen m > bl)) = true
    · have hstep : bestStep np (b, bl) m = (some m, baseLen m) := by
        unfold bestStep
        rw [hc]
        rfl
      rw [hstep]
      have hql : qualifies np m = true ∧ baseLen m > bl := by simpa using hc
      rcases hql with ⟨hq, hlt⟩
      rcases bestFold_char np ms (some m) (baseLen m) with ⟨heq, hall⟩ | ⟨l1, m2, l2, hsplit, hq2, hlt2, hl1, hl2, heq⟩
      · exact Or.inr ⟨[], m, ms, rfl, hq, hlt, by simp, hall, heq⟩
      · refine Or.inr ⟨m :: l1, m2, l2, by simp [hsplit], hq2, lt_trans hlt hlt2, ?_, hl2, heq⟩
        intro x hx hqx
        rcases List.mem_cons.mp hx with rfl | hx2
        · exact hlt2
        · exact hl1 x hx2 hqx
    · have hstep : bestStep np (b, bl) m = (b, bl) := by
        unfold bestStep
        rw [Bool.not_eq_true] at hc
        rw [hc]
        rfl
      rw [hstep]
      have hnb : qualifies np m = true → baseLen m ≤ bl := by
        intro hq
        by_contra hgt
        apply absurd hc
        simp only [Bool.not_eq_false, Bool.and_eq_true, hq, true_and]
        simpa using Nat.lt_of_not_le (by omega)
      rcases bestFold_char np ms b bl with ⟨heq, hall⟩ | ⟨l1, m2, l2, hsplit, hq2, hlt2, hl1, hl2, heq⟩
      · refine Or.inl ⟨heq, ?_⟩
        intro x hx hqx
        rcases List.mem_cons.mp hx with rfl | hx2
        · exact hnb hqx
        · exact hall x hx2 hqx
      · refine Or.inr ⟨m :: l1, m2, l2, by simp [hsplit], hq2, hlt2, ?_, hl2, heq⟩
        intro x hx hqx
        rcases List.mem_cons.mp hx with rfl | hx2
        · exact lt_of_le_of_lt (hnb hqx) hlt2
        · exact hl1 x hx2 hqx

/-- The two mappings of the concrete example in C1. -/
def atMapping : PathMapping := ⟨str "@/*", str "./src/*", str "/p/src"⟩

def componentsMapping : PathMapping :=
  ⟨str "@components/*", str "./src/components/*", str "/p/src/components"⟩

def exampleStateC1 : ResolverState :=
  createPathResolver [(str "@", [atMapping]), (str "@components", [componentsMapping])]

/-- C1: `findBestMatch` returns `none` exactly when no mapping's
normalized, `/*`-stripped resolved base is a string prefix of the
normalized candidate; otherwise it returns a qualifying mapping of
maximal base length that strictly beats every earlier qualifier
(first-found wins on ties).  On the `@` / `@components` example it
selects the `@components` mapping. -/
theorem claim_C1_findBestMatch_longestPrefix :
    (∀ (state : ResolverState) (absolutePath : List Char),
      (findBestMatch state absolutePath = none ↔
        ∀ m ∈ allMappings state.pathMappings,
          qualifies (pnormalize absolutePath) m = false) ∧
      (∀ m, findBestMatch state absolutePath = some m →
        m ∈ allMappings state.pathMappings ∧
        qualifies (pnormalize absolutePath) m = true ∧
        (∀ m2 ∈ allMappings state.pathMappings,
          qualifies (pnormalize absolutePath) m2 = true → baseLen m2 ≤ baseLen m) ∧
        ∃ l1 l2, allMappings state.pathMappings = l1 ++ m :: l2 ∧
          ∀ m2 ∈ l1, qualifies (pnormalize absolutePath) m2 = true → baseLen m2 < baseLen m)) ∧
    findBestMatch exampleStateC1 (str "/p/src/components/Button.ts") = some componentsMapping := by
  refine ⟨?_, by decide⟩
  intro state absolutePath
  have H := bestFold_char (pnormalize absolutePath) (allMappings state.pathMappings) none 0
  unfold findBestMatch
  rcases H with ⟨heq, hall⟩ | ⟨l1, m0, l2, hsplit, hq0, _, hl1, hl2, heq⟩
  · rw [heq]
    constructor
    · constructor
      · intro _ m hm
        by_contra hq
        rw [Bool.not_eq_false] at hq
        have hle := hall m hm hq
        have hpos : 0 < baseLen m := by
          have := pnormalize_ne_nil (stripSlashStar m.resolvedBase)
          unfold baseLen
          exact List.length_pos.mpr this
        omega
      · intro _
        rfl
    · intro m hm
      exact absurd hm (by simp)
  · rw [heq]
    constructor
    · constructor
      · intro hcontra
        exact absurd hcontra (by simp)
      · intro hforall
        have hm0 : m0 ∈ allMappings state.pathMappings := by
          rw [hsplit]
          exact List.mem_append_right l1 (List.mem_cons_self m0 l2)
        rw [hforall m0 hm0] at hq0
        exact absurd hq0 (by simp)
    · intro m hm
      have hmm : m = m0 := (Option.some.inj hm).symm
      subst hmm
      refine ⟨?_, hq0, ?_, l1, l2, hsplit, hl1⟩
      · rw [hsplit]
        exact List.mem_append_right l1 (List.mem_cons_self m l2)
      · intro m2 hm2 hq2
        rw [hsplit] at hm2
        rcases List.mem_append.mp hm2 with h1 | h2
        · exact le_of_lt (hl1 m2 h1 hq2)
        · rcases List.mem_cons.mp h2 with rfl | h3
          · exact le_refl _
          · exact hl2 m2 h3 hq2

/-- Witness for C1: the concrete example discharges the `some` branch
of the characterization. -/
theorem claim_C1_findBestMatch_longestPrefix_witness :
    findBestMatch exampleStateC1 (str "/p/src/components/Button.ts") = some componentsMapping ∧
    componentsMapping ∈ allMappings exampleStateC1.pathMappings ∧
    qualifies (pnormalize (str "/p/src/components/Button.ts")) componentsMapping = true := by
  have H := claim_C1_findBestMatch_longestPrefix
  have hex := H.2
  have hsome := (H.1 exampleStateC1 (str "/p/src/components/Button.ts")).2 componentsMapping hex
  exact ⟨hex, hsome.1, hsome.2.1⟩

/-! ## The reverse alias lookup (C9) -/

/-- `Map.get` on a cons cell. -/
theorem jsMapGet_cons (k : List Char) (e : List Char × List Char)
    (es : List (List Char × List Char)) :
    jsMapGet k (e :: es) = if e.1 = k then some e.2 else jsMapGet k es := by
  by_cases he : e.1 = k <;> simp [jsMapGet, List.find?_cons, he]

/-- The raw entry list produced by `Map.set`. -/
theorem jsMapSet_entries (k v : List Char) (m : List (List Char × List Char)) :
    (jsMapSet k v m = m.map (fun e => if e.1 = k then (k, v) else e) ∧
      (jsMapGet k m).isSome = true) ∨
    (jsMapSet k v m = m ++ [(k, v)] ∧ jsMapGet k m = none) := by
  unfold jsMapSet
  split
  case isTrue h =>
    refine Or.inl ⟨rfl, ?_⟩
    unfold jsMapGet
    rcases hf : m.find? (fun e => e.1 = k) with _ | e
    · rw [hf] at h
      simp at h
    · rw [hf]
      rfl
  case isFalse h =>
    refine Or.inr ⟨rfl, ?_⟩
    unfold jsMapGet
    rcases hf : m.find? (fun e => e.1 = k) with _ | e
    · rw [hf]
      rfl
    · rw [hf] at h
      exact absurd rfl h

/-- `Map.get` after overwriting the entries holding key `k`. -/
theorem jsMapGet_map_overwrite (k v : List Char) :
    ∀ (m : List (List Char × List Char)), (jsMapGet k m).isSome = true →
      jsMapGet k (m.map (fun e => if e.1 = k then (k, v) else e)) = some v
  | [], h => by simp [jsMapGet] at h
  | e :: es, h => by
    by_cases he : e.1 = k
    · simp only [List.map_cons, if_pos he, jsMapGet_cons]
      simp
    · simp only [List.map_cons, if_neg he, jsMapGet_cons, if_neg he]
      rw [jsMapGet_cons, if_neg he] at h
      exact jsMapGet_map_overwrite k v es h

/-- `Map.get` after appending a fresh entry at the end. -/
theorem jsMapGet_append_fresh (k v : List Char) :
    ∀ (m : List (List Char × List Char)), jsMapGet k m = none →
      jsMapGet k (m ++ [(k, v)]) = some v
  | [], _ => by simp [jsMapGet, List.find?_cons]
  | e :: es, h => by
    rw [jsMapGet_cons] at h
    by_cases he : e.1 = k
    · rw [if_pos he] at h
      exact absurd h (by simp)
    · rw [if_neg he] at h
      rw [List.cons_append, jsMapGet_cons, if_neg he]
      exact jsMapGet_append_fresh k v es h

/-- `Map.set` then `Map.get` at the same key yields the new value. -/
theorem jsMapGet_set_self (k v : List Char) (m : List (List Char × List Char)) :
    jsMapGet k (jsMapSet k v m) = some v := by
  rcases jsMapSet_entries k v m with ⟨h, hsome⟩ | ⟨h, hget⟩
  · rw [h]
    exact jsMapGet_map_overwrite k v m hsome
  · rw [h]
    exact jsMapGet_append_fresh k v m hget

/-- `Map.set` leaves other keys unchanged. -/
theorem jsMapGet_set_other (k k2 v : List Char) (m : List (List Char × List Char))
    (hne : k2 ≠ k) : jsMapGet k2 (jsMapSet k v m) = jsMapGet k2 m := by
  rcases jsMapSet_entries k v m with ⟨h, hdead⟩ | ⟨h, hdead⟩
  · rw [h]
    clear h hdead
    induction m with
    | nil => rfl
    | cons e es ih =>
      simp only [List.map_cons]
      by_cases he : e.1 = k
      · rw [if_pos he, jsMapGet_cons, jsMapGet_cons, if_neg (Ne.symm hne),
          if_neg (by rw [he]; exact Ne.symm hne)]
        exact ih
      · rw [if_neg he, jsMapGet_cons, jsMapGet_cons]
        by_cases h2 : e.1 = k2
        · rw [if_pos h2, if_pos h2]
        · rw [if_neg h2, if_neg h2]
          exact ih
  · rw [h]
    clear h hdead
    induction m with
    | nil => simp [jsMapGet_cons, jsMapGet, Ne.symm hne]
    | cons e es ih =>
      rw [List.cons_append, jsMapGet_cons, jsMapGet_cons]
      by_cases h2 : e.1 = k2
      · rw [if_pos h2, if_pos h2]
      · rw [if_neg h2, if_neg h2]
        exact ih

/-- Every entry of `Map.set` is the new pair or an old entry. -/
theorem mem_jsMapSet (k v : List Char) (m : List (List Char × List Char))
    (e : List Char × List Char) (he : e ∈ jsMapSet k v m) : e = (k, v) ∨ e ∈ m := by
  unfold jsMapSet at he
  split at he
  · rcases List.mem_map.mp he with ⟨x, hx, hfx⟩
    by_cases hxk : x.1 = k
    · rw [if_pos hxk] at hfx
      exact Or.inl hfx.symm
    · rw [if_neg hxk] at hfx
      exact Or.inr (hfx ▸ hx)
  · rcases List.mem_append.mp he with h | h
    · exact Or.inr h
    · simp at h
      exact Or.inl (by simp [h])

/-- Invariant of the `aliasLookup` fold: every entry pairs the clean
base of some processed mapping with that mapping's clean alias, and
every processed mapping's clean base is present as a key. -/
theorem aliasFold_inv :
    ∀ (ms : List PathMapping) (m0 : List (List Char × List Char)) (pre : List PathMapping),
      (∀ e ∈ m0, ∃ mp ∈ pre, stripSlashStar mp.resolvedBase = e.1 ∧
          stripSlashStar mp.aliasPattern = e.2) →
      (∀ mp ∈ pre, (jsMapGet (stripSlashStar mp.resolvedBase) m0).isSome = true) →
      (∀ e ∈ ms.foldl aliasStep m0, ∃ mp ∈ pre ++ ms, stripSlashStar mp.resolvedBase = e.1 ∧
          stripSlashStar mp.aliasPattern = e.2) ∧
      (∀ mp ∈ pre ++ ms,
        (jsMapGet (stripSlashStar mp.resolvedBase) (ms.foldl aliasStep m0)).isSome = true)
  | [], m0, pre, hent, hpres => by
    refine ⟨?_, ?_⟩
    · simpa using hent
    · simpa using hpres
  | mp :: ms, m0, pre, hent, hpres => by
    simp only [List.foldl_cons]
    have hkey :
        ∀ e ∈ aliasStep m0 mp, ∃ x ∈ pre ++ [mp], stripSlashStar x.resolvedBase = e.1 ∧
          stripSlashStar x.aliasPattern = e.2 := by
      intro e he
      simp only [aliasStep] at he
      split at he
      · rcases mem_jsMapSet _ _ _ _ he with rfl | hin
        · exact ⟨mp, by simp, rfl, rfl⟩
        · rcases hent e hin with ⟨x, hx, hx2⟩
          exact ⟨x, by simp [hx], hx2⟩
      · rcases hent e he with ⟨x, hx, hx2⟩
        exact ⟨x, by simp [hx], hx2⟩
    have hpres2 : ∀ x ∈ pre ++ [mp],
        (jsMapGet (stripSlashStar x.resolvedBase) (aliasStep m0 mp)).isSome = true := by
      intro x hx
      simp only [aliasStep]
      split
      · by_cases hxk : stripSlashStar x.resolvedBase = stripSlashStar mp.resolvedBase
        · rw [hxk, jsMapGet_set_self]
          rfl
        · rw [jsMapGet_set_other _ _ _ _ hxk]
          rcases List.mem_append.mp hx with h | h
          · exact hpres x h
          · simp at h
            exact absurd (by rw [h]) hxk
      case isFalse hov =>
        rcases List.mem_append.mp hx with h | h
        · exact hpres x h
        · simp at h
          subst h
          rcases hget : jsMapGet (stripSlashStar x.resolvedBase) m0 with _ | ea
          · rw [hget] at hov
            simp at hov
          · rfl
    have IH := aliasFold_inv ms (aliasStep m0 mp) (pre ++ [mp]) hkey hpres2
    refine ⟨?_, ?_⟩
    · intro e he
      rcases IH.1 e he with ⟨x, hx, hx2⟩
      refine ⟨x, ?_, hx2⟩
      rcases List.mem_append.mp hx with h | h
      · rcases List.mem_append.mp h with h2 | h2
        · exact List.mem_append_left _ h2
        · simp at h2
          subst h2
          exact List.mem_append_right _ (List.mem_cons_self _ _)
      · exact List.mem_append_right _ (List.mem_cons_of_mem _ h)
    · intro x hx
      apply IH.2
      rcases List.mem_append.mp hx with h | h
      · exact List.mem_append_left _ (List.mem_append_left _ h)
      · rcases List.mem_cons.mp h with rfl | h2
        · exact List.mem_append_left _ (List.mem_append_right _ (by simp))
        · exact List.mem_append_right _ h2

/-- C9: after `createPathResolver`, every mapping's clean resolved base
is a key of the reverse lookup, and the alias stored there is the clean
alias of a mapping resolving to exactly that directory — hence of a
directory at least as long as any other alias directory that is a
prefix of it, which is the specificity rule the claim states. -/
theorem claim_C9_reverseLookup_longest :
    ∀ (pm : List (List Char × List PathMapping)) (mp : PathMapping),
      mp ∈ allMappings pm →
      ∃ a, jsMapGet (stripSlashStar mp.resolvedBase) (createPathResolver pm).aliasLookup
            = some a ∧
        (∃ mp2 ∈ allMappings pm,
          stripSlashStar mp2.resolvedBase = stripSlashStar mp.resolvedBase ∧
          stripSlashStar mp2.aliasPattern = a) ∧
        (∀ mp3 ∈ allMappings pm,
          stripSlashStar mp3.resolvedBase <+: stripSlashStar mp.resolvedBase →
          (stripSlashStar mp3.resolvedBase).length ≤ (stripSlashStar mp.resolvedBase).length) := by
  intro pm mp hmp
  have H := aliasFold_inv (allMappings pm) [] [] (by simp) (by simp)
  have hpres := H.2 mp (by simpa using hmp)
  rcases hget : jsMapGet (stripSlashStar mp.resolvedBase)
      ((allMappings pm).foldl aliasStep []) with _ | a
  · rw [hget] at hpres
    simp at hpres
  · refine ⟨a, hget, ?_, ?_⟩
    · unfold jsMapGet at hget
      rcases hfind : ((allMappings pm).foldl aliasStep []).find?
          (fun e => e.1 = stripSlashStar mp.resolvedBase) with _ | e
      · rw [hfind] at hget
        exact Option.noConfusion hget
      · rw [hfind] at hget
        have hmem := List.mem_of_find?_eq_some hfind
        have hkey : e.1 = stripSlashStar mp.resolvedBase := by
          simpa using List.find?_some hfind
        rcases H.1 e hmem with ⟨x, hx, hx1, hx2⟩
        refine ⟨x, by simpa using hx, ?_, ?_⟩
        · rw [hx1, hkey]
        · rw [hx2]
          exact Option.some.inj hget
    · intro mp3 _ hpref
      exact hpref.length_le

/-- Witness for C9 at the two-alias example state. -/
theorem claim_C9_reverseLookup_longest_witness :
    componentsMapping ∈ allMappings [(str "@", [atMapping]), (str "@components", [componentsMapping])] ∧
    ∃ a, jsMapGet (stripSlashStar componentsMapping.resolvedBase)
          (createPathResolver
            [(str "@", [atMapping]), (str "@components", [componentsMapping])]).aliasLookup
          = some a ∧
      (∃ mp2 ∈ allMappings [(str "@", [atMapping]), (str "@components", [componentsMapping])],
        stripSlashStar mp2.resolvedBase = stripSlashStar componentsMapping.resolvedBase ∧
        stripSlashStar mp2.aliasPattern = a) ∧
      (∀ mp3 ∈ allMappings [(str "@", [atMapping]), (str "@components", [componentsMapping])],
        stripSlashStar mp3.resolvedBase <+: stripSlashStar componentsMapping.resolvedBase →
        (stripSlashStar mp3.resolvedBase).length ≤
          (stripSlashStar componentsMapping.resolvedBase).length) :=
  ⟨by decide,
    claim_C9_reverseLookup_longest
      [(str "@", [atMapping]), (str "@components", [componentsMapping])]
      componentsMapping (by decide)⟩

/-! ## Cache policy of resolveImport (C7) -/

/-- A cache miss leaves the cache untouched. -/
theorem lruGet_miss (key : List Char) (c : LRU) (h : (lruGet key c).1 = none) :
    lruGet key c = (none, c) := by
  unfold lruGet at h ⊢
  rcases hf : c.entries.find? (fun e => e.1 = key) with _ | e
  · rw [hf]
  · rw [hf] at h
    exact Option.noConfusion h

/-- A resolver state with no alias mappings at all. -/
def emptyState : ResolverState := createPathResolver []

/-- C7 (amended): on a cache miss with a relative literal,
`resolveImport` stores the result under `` `${fromFile}:${importPath}` ``
before returning when the conversion is truthy (non-null and non-empty)
or when the empty `fromFile` error is reported — but the
`No matching path alias found` and `Failed to convert to alias format`
failures, the latter covering both a null and a falsy empty-string
conversion, return with the cache unchanged. -/
theorem claim_C7_cacheStoresSuccessesAndErrors :
    ∀ (state : ResolverState) (p f : List Char) (c : LRU),
      isRelativeImport p = true →
      (lruGet (cacheKey p f) c).1 = none →
      ((resolveImportS state p f c).1.convertedImport ≠ none ∨
          (resolveImportS state p f c).1.reason = emptyFromFileReason →
        (resolveImportS state p f c).2 =
          lruSet (cacheKey p f) (resolveImportS state p f c).1 c) ∧
      ((resolveImportS state p f c).1.reason = str "No matching path alias found" ∨
          (resolveImportS state p f c).1.reason = str "Failed to convert to alias format" →
        (resolveImportS state p f c).2 = c) := by
  intro state p f c h1 h2
  have hmiss : lruGet (cacheKey p f) c = (none, c) := lruGet_miss _ _ h2
  simp only [resolveImportS, h1, Bool.not_true, Bool.false_eq_true, if_false, hmiss]
  by_cases hemp : (f = [] || jsTrim f = []) = true
  · simp only [hemp, if_true]
    constructor
    · intro _
      first
      | rfl
      | trivial
    · intro h
      rcases h with h | h <;> exact absurd h (by decide)
  · simp only [hemp, Bool.false_eq_true, if_false]
    split
    · constructor
      · intro h
        rcases h with h | h
        · exact absurd rfl h
        · exact absurd h
            (show ¬(str "No matching path alias found" = emptyFromFileReason) by decide)
      · intro _
        rfl
    · split
      · constructor
        · intro h
          rcases h with h | h
          · exact absurd rfl h
          · exact absurd h
              (show ¬(str "Failed to convert to alias format" = emptyFromFileReason) by decide)
        · intro _
          rfl
      · rename_i conv heqca
        by_cases hcv : conv = []
        · rw [if_pos hcv]
          constructor
          · intro h
            rcases h with h | h
            · exact absurd rfl h
            · exact absurd h
                (show ¬(str "Failed to convert to alias format" = emptyFromFileReason)
                  by decide)
          · intro _
            rfl
        · rw [if_neg hcv]
          constructor
          · intro _
            rfl
          · intro h
            rcases h with h | h <;>
              · exfalso
                simp only [convertedReason, str] at h
                exact absurd (List.cons.inj h).1 (by decide)

/-- Witness for the amended C7: a successful conversion on a miss is
stored before being returned. -/
theorem claim_C7_cacheStoresSuccessesAndErrors_witness :
    isRelativeImport (str "./B.ts") = true ∧
    (lruGet (cacheKey (str "./B.ts") (str "/p/src/f.ts")) emptyCache).1 = none ∧
    (resolveImportS exampleStateC1 (str "./B.ts") (str "/p/src/f.ts") emptyCache).2 =
      lruSet (cacheKey (str "./B.ts") (str "/p/src/f.ts"))
        (resolveImportS exampleStateC1 (str "./B.ts") (str "/p/src/f.ts") emptyCache).1
        emptyCache :=
  ⟨by decide, by decide,
    (claim_C7_cacheStoresSuccessesAndErrors exampleStateC1 (str "./B.ts") (str "/p/src/f.ts")
      emptyCache (by decide) (by decide)).1 (Or.inl (by decide))⟩

/-- A mapping whose alias pattern strips to the empty string: alias
`/*` resolving to `/p`. -/
def slashStarMapping : PathMapping := ⟨str "/*", str "./", str "/p"⟩

def slashStarState : ResolverState := createPathResolver [(str "", [slashStarMapping])]

/-- Counterexample to C7 as stated: failures are not all cached. A cache
miss that fails with `No matching path alias found` is returned with the
cache still empty; and at the falsy corner — alias pattern `/*`, import
`../` from `/p/x/f.ts`, where `convertToAlias` computes the empty
string — the `Failed to convert to alias format` failure is likewise
returned without being stored. -/
theorem claim_C7_counterexample :
    isRelativeImport (str "./a") = true ∧
    (lruGet (cacheKey (str "./a") (str "/x/f.ts")) emptyCache).1 = none ∧
    (resolveImportS emptyState (str "./a") (str "/x/f.ts") emptyCache).1.reason =
      str "No matching path alias found" ∧
    (resolveImportS emptyState (str "./a") (str "/x/f.ts") emptyCache).1.convertedImport
      = none ∧
    (resolveImportS emptyState (str "./a") (str "/x/f.ts") emptyCache).2.entries = [] ∧
    isRelativeImport (str "../") = true ∧
    (lruGet (cacheKey (str "../") (str "/p/x/f.ts")) emptyCache).1 = none ∧
    convertToAlias (presolve (pdirname (str "/p/x/f.ts")) (str "../")) slashStarMapping =
      some [] ∧
    findBestMatch slashStarState (presolve (pdirname (str "/p/x/f.ts")) (str "../")) =
      some slashStarMapping ∧
    (resolveImportS slashStarState (str "../") (str "/p/x/f.ts") emptyCache).1.reason =
      str "Failed to convert to alias format" ∧
    (resolveImportS slashStarState (str "../") (str "/p/x/f.ts") emptyCache).1.convertedImport
      = none ∧
    (resolveImportS slashStarState (str "../") (str "/p/x/f.ts") emptyCache).2.entries = [] := by
  decide

/-! ## Determinism of resolveImport (C6)

The module-global `resolveCache` is shared by every resolver state and
its key omits the state, so a call can return a value computed from an
earlier call's state.  Within a single state (and with `:`-free import
literals, which keeps the string key `` `${fromFile}:${importPath}` ``
injective) every call returns the pure function of its triple. -/

theorem colon_append_inj :
    ∀ (a1 : List Char) (b1 : List Char) (a2 : List Char) (b2 : List Char),
      ':' ∉ a1 → ':' ∉ a2 → a1 ++ ':' :: b1 = a2 ++ ':' :: b2 → a1 = a2 ∧ b1 = b2
  | [], b1, [], b2, _, _, h => ⟨rfl, by simpa using h⟩
  | [], b1, c :: a2, b2, _, h2, h => by
    simp only [List.nil_append, List.cons_append, List.cons.injEq] at h
    have hm : ':' ∈ c :: a2 := by
      rw [h.1]
      exact List.mem_cons_self c a2
    exact absurd hm h2
  | c :: a1, b1, [], b2, h1, _, h => by
    simp only [List.nil_append, List.cons_append, List.cons.injEq] at h
    have hm : ':' ∈ c :: a1 := by
      rw [← h.1]
      exact List.mem_cons_self c a1
    exact absurd hm h1
  | c :: a1, b1, c2 :: a2, b2, h1, h2, h => by
    simp only [List.cons_append, List.cons.injEq] at h
    have ih := colon_append_inj a1 b1 a2 b2
      (fun hm => h1 (List.mem_cons_of_mem _ hm))
      (fun hm => h2 (List.mem_cons_of_mem _ hm)) h.2
    exact ⟨by rw [h.1, ih.1], ih.2⟩

/-- The cache key determines the call pair when the import literal is
colon-free. -/
theorem cacheKey_inj (p1 f1 p2 f2 : List Char) (hp1 : ':' ∉ p1) (hp2 : ':' ∉ p2)
    (h : cacheKey p1 f1 = cacheKey p2 f2) : p1 = p2 ∧ f1 = f2 := by
  unfold cacheKey at h
  have h2 : p1.reverse ++ ':' :: f1.reverse = p2.reverse ++ ':' :: f2.reverse := by
    have := congrArg List.reverse h
    simpa [str, List.reverse_append] using this
  have h3 := colon_append_inj p1.reverse f1.reverse p2.reverse f2.reverse
    (by simpa using hp1) (by simpa using hp2) h2
  exact ⟨by simpa using congrArg List.reverse h3.1,
         by simpa using congrArg List.reverse h3.2⟩

/-- Every cached value is the pure answer of the (unique, colon-free)
call pair its key encodes, all for one fixed resolver state. -/
def CacheOK (state : ResolverState) (c : LRU) : Prop :=
  ∀ e ∈ c.entries, ∀ p f, ':' ∉ p → e.1 = cacheKey p f → e.2 = resolveImportPure state p f

theorem mem_lruSet_entries (key : List Char) (v : ConversionResult) (c : LRU)
    (e : List Char × ConversionResult) (he : e ∈ (lruSet key v c).entries) :
    e = (key, v) ∨ e ∈ c.entries := by
  unfold lruSet at he
  split at he
  · rcases List.mem_cons.mp he with rfl | h2
    · exact Or.inl rfl
    · exact Or.inr ((List.eraseP_sublist _).mem h2)
  · rcases List.mem_cons.mp he with rfl | h2
    · exact Or.inl rfl
    · split at h2
      · exact Or.inr ((List.dropLast_sublist _).mem h2)
      · exact Or.inr h2

/-- One call against a consistent cache returns the pure result and
preserves consistency. -/
theorem resolveImportS_pure (state : ResolverState) (p f : List Char) (c : LRU)
    (hp : ':' ∉ p) (hok : CacheOK state c) :
    (resolveImportS state p f c).1 = resolveImportPure state p f ∧
    CacheOK state (resolveImportS state p f c).2 := by
  by_cases hrel : isRelativeImport p = true
  · simp only [resolveImportS, resolveImportPure, hrel, Bool.not_true, Bool.false_eq_true,
      if_false]
    rcases hget : lruGet (cacheKey p f) c with ⟨vq, c1⟩
    rcases vq with _ | v
    · have hc1 : c1 = c := by
        have h0 := lruGet_miss (cacheKey p f) c (by rw [hget])
        rw [hget] at h0
        exact (Prod.mk.inj h0).2
      subst hc1
      by_cases hemp : (f = [] || jsTrim f = []) = true
      · simp only [hemp, if_true]
        refine ⟨by first | rfl | trivial, ?_⟩
        intro e he p2 f2 hp2 hkey
        rcases mem_lruSet_entries _ _ _ _ he with heq | h2
        · rcases cacheKey_inj p f p2 f2 hp hp2 (by rw [← hkey, heq]) with ⟨rfl, rfl⟩
          rw [heq]
          simp only [resolveImportPure, hrel, Bool.not_true, Bool.false_eq_true, if_false,
            hemp, if_true]
        · exact hok e h2 p2 f2 hp2 hkey
      · simp only [hemp, Bool.false_eq_true, if_false]
        split
        · exact ⟨by first | rfl | trivial, hok⟩
        · rename_i bm heqbm
          split
          · exact ⟨by first | rfl | trivial, hok⟩
          · rename_i conv heqca
            by_cases hcv : conv = []
            · rw [if_pos hcv, if_pos hcv]
              exact ⟨rfl, hok⟩
            · rw [if_neg hcv, if_neg hcv]
              refine ⟨by first | rfl | trivial, ?_⟩
              intro e he p2 f2 hp2 hkey
              rcases mem_lruSet_entries _ _ _ _ he with heq | h2
              · rcases cacheKey_inj p f p2 f2 hp hp2 (by rw [← hkey, heq]) with ⟨rfl, rfl⟩
                rw [heq]
                simp only [resolveImportPure, hrel, Bool.not_true, Bool.false_eq_true, if_false,
                  hemp, heqbm, heqca, if_neg hcv]
              · exact hok e h2 p2 f2 hp2 hkey
    · unfold lruGet at hget
      rcases hf : c.entries.find? (fun e => e.1 = cacheKey p f) with _ | x
      · rw [hf] at hget
        exact absurd (Prod.mk.inj hget).1 (by simp)
      · rw [hf] at hget
        have hv : some x.2 = some v := (Prod.mk.inj hget).1
        have hc1 : c1 = ⟨x :: c.entries.eraseP (fun e => decide (e.1 = cacheKey p f)),
            c.capacity⟩ := (Prod.mk.inj hget).2.symm
        have hxmem : x ∈ c.entries := List.mem_of_find?_eq_some hf
        have hxkey : x.1 = cacheKey p f := by simpa using List.find?_some hf
        have hxval : x.2 = resolveImportPure state p f := hok x hxmem p f hp hxkey
        constructor
        · rw [← Option.some.inj hv, hxval]
          simp only [resolveImportPure, hrel, Bool.not_true, Bool.false_eq_true, if_false]
        · intro e he p2 f2 hp2 hkey
          rw [hc1] at he
          rcases List.mem_cons.mp he with rfl | h2
          · exact hok e hxmem p2 f2 hp2 hkey
          · exact hok e ((List.eraseP_sublist _).mem h2) p2 f2 hp2 hkey
  · have hrel2 : isRelativeImport p = false := eq_false_of_ne_true hrel
    simp only [resolveImportS, resolveImportPure, hrel2, Bool.not_false, if_true]
    exact ⟨by first | rfl | trivial, hok⟩

theorem runCalls_pure (state : ResolverState) :
    ∀ (calls : List (List Char × List Char)) (c : LRU),
      (∀ pf ∈ calls, ':' ∉ pf.1) → CacheOK state c →
      (runCalls (calls.map (fun pf => (state, pf.1, pf.2))) c).1 =
        calls.map (fun pf => resolveImportPure state pf.1 pf.2)
  | [], _, _, _ => rfl
  | pf :: calls, c, hcol, hok => by
    simp only [List.map_cons, runCalls]
    have hstep := resolveImportS_pure state pf.1 pf.2 c
      (hcol pf (List.mem_cons_self pf calls)) hok
    have ih := runCalls_pure state calls (resolveImportS state pf.1 pf.2 c).2
      (fun x hx => hcol x (List.mem_cons_of_mem pf hx)) hstep.2
    rcases hr : resolveImportS state pf.1 pf.2 c with ⟨r, c2⟩
    simp only [hr] at hstep ih
    simp [hstep.1, ih]

/-- C6 (amended): within any sequence of calls that all use one fixed
resolver state and whose import literals contain no `:`, every
`resolveImport` call returns exactly the pure function of its triple —
in particular any two calls with identical arguments return equal
results. -/
theorem claim_C6_singleState_deterministic :
    ∀ (state : ResolverState) (calls : List (List Char × List Char)),
      (∀ pf ∈ calls, ':' ∉ pf.1) →
      (runCalls (calls.map (fun pf => (state, pf.1, pf.2))) emptyCache).1 =
        calls.map (fun pf => resolveImportPure state pf.1 pf.2) := by
  intro state calls hcol
  exact runCalls_pure state calls emptyCache hcol
    (fun e he => absurd he (by simp [emptyCache]))

/-- Witness for the amended C6 at a one-call sequence. -/
theorem claim_C6_singleState_deterministic_witness :
    (∀ pf ∈ [(str "./B.ts", str "/p/src/f.ts")], ':' ∉ pf.1) ∧
    (runCalls ([(str "./B.ts", str "/p/src/f.ts")].map
        (fun pf => (exampleStateC1, pf.1, pf.2))) emptyCache).1 =
      [(str "./B.ts", str "/p/src/f.ts")].map
        (fun pf => resolveImportPure exampleStateC1 pf.1 pf.2) :=
  ⟨by decide, claim_C6_singleState_deterministic exampleStateC1 _ (by decide)⟩

/-- Counterexample to C6 as stated: the same call
`(emptyState, "./B.ts", "/p/src/f.ts")` returns
`No matching path alias found` when run alone, but returns the
`@/B.ts` conversion computed from a *different* resolver state when an
earlier call with that other state populated the shared cache — the
result depends on history outside the argument triple. -/
theorem claim_C6_counterexample :
    (runCalls [(emptyState, str "./B.ts", str "/p/src/f.ts")] emptyCache).1 =
      [⟨str "./B.ts", none, str "No matching path alias found"⟩] ∧
    (runCalls [(exampleStateC1, str "./B.ts", str "/p/src/f.ts"),
               (emptyState, str "./B.ts", str "/p/src/f.ts")] emptyCache).1 =
      [⟨str "./B.ts", some (str "@/B.ts"), convertedReason (str "@/*")⟩,
       ⟨str "./B.ts", some (str "@/B.ts"), convertedReason (str "@/*")⟩] := by
  decide

theorem splitOn_parts (c : Char) : ∀ (l : List Char) (s : List Char), s ∈ l.splitOn c → c ∉ s
  | [], s, hs => by
    simp only [List.splitOn, List.splitOnP_nil, List.mem_singleton] at hs
    simp [hs]
  | x :: xs, s, hs => by
    simp only [List.splitOn, List.splitOnP_cons] at hs
    by_cases hx : x = c
    · rw [if_pos (by simp [hx])] at hs
      rcases List.mem_cons.mp hs with rfl | h2
      · simp
      · exact splitOn_parts c xs s h2
    · rw [if_neg (by simp [hx])] at hs
      rcases he : List.splitOnP (fun y => y == c) xs with _ | ⟨h0, t⟩
      · exact absurd he (List.splitOnP_ne_nil _ _)
      · rw [he] at hs
        simp only [List.modifyHead] at hs
        rcases List.mem_cons.mp hs with rfl | h2
        · intro hc
          rcases List.mem_cons.mp hc with rfl | hc2
          · exact hx rfl
          · exact splitOn_parts c xs h0
              (by rw [List.splitOn, he]; exact List.mem_cons_self _ _) hc2
        · exact splitOn_parts c xs s
            (by rw [List.splitOn, he]; exact List.mem_cons_of_mem _ h2)

theorem normSegs_nil (b : Bool) (acc : List (List Char)) :
    normSegs b acc [] = acc.reverse := rfl

theorem normSegs_cons_accNil (b : Bool) (seg : List Char) (rest : List (List Char)) :
    normSegs b [] (seg :: rest) =
      if seg = [] || seg = str "." then normSegs b [] rest
      else if seg = str ".." then
        (if b then normSegs b [seg] rest else normSegs b [] rest)
      else normSegs b [seg] rest := by
  rw [normSegs.eq_def]

theorem normSegs_cons_accCons (b : Bool) (top : List Char) (accTail : List (List Char))
    (seg : List Char) (rest : List (List Char)) :
    normSegs b (top :: accTail) (seg :: rest) =
      if seg = [] || seg = str "." then normSegs b (top :: accTail) rest
      else if seg = str ".." then
        (if top = str ".." then
          (if b then normSegs b (seg :: top :: accTail) rest
           else normSegs b (top :: accTail) rest)
         else normSegs b accTail rest)
      else normSegs b (seg :: top :: accTail) rest := by
  rw [normSegs.eq_def]

def cleanSeg (s : List Char) : Prop :=
  s ≠ [] ∧ s ≠ str "." ∧ s ≠ str ".." ∧ '/' ∉ s

theorem normSegs_false_clean : ∀ (segs acc : List (List Char)),
    (∀ a ∈ acc, cleanSeg a) → (∀ s ∈ segs, '/' ∉ s) →
    ∀ s ∈ normSegs false acc segs, cleanSeg s
  | [], acc, hacc, _, s, hs => by
    rw [normSegs_nil] at hs
    exact hacc s (List.mem_reverse.mp hs)
  | seg :: rest, acc, hacc, hsl, s, hs => by
    have hrest : ∀ x ∈ rest, '/' ∉ x := fun x hx => hsl x (List.mem_cons_of_mem _ hx)
    by_cases h1 : (seg = [] || seg = str ".") = true
    · rcases acc with _ | ⟨top, accTail⟩ <;>
        [rw [normSegs_cons_accNil, if_pos h1] at hs;
         rw [normSegs_cons_accCons, if_pos h1] at hs] <;>
        exact normSegs_false_clean rest _ hacc hrest s hs
    · by_cases h2 : seg = str ".."
      · rcases acc with _ | ⟨top, accTail⟩
        · rw [normSegs_cons_accNil, if_neg h1, if_pos h2, if_neg (by decide : ¬false = true)] at hs
          exact normSegs_false_clean rest [] (by simp) hrest s hs
        · rw [normSegs_cons_accCons, if_neg h1, if_pos h2] at hs
          by_cases h3 : top = str ".."
          · rw [if_pos h3, if_neg (by decide : ¬false = true)] at hs
            exact normSegs_false_clean rest (top :: accTail) hacc hrest s hs
          · rw [if_neg h3] at hs
            exact normSegs_false_clean rest accTail
              (fun a ha => hacc a (List.mem_cons_of_mem _ ha)) hrest s hs
      · have hpush : ∀ a ∈ seg :: acc, cleanSeg a := by
          intro a ha
          rcases List.mem_cons.mp ha with rfl | ha2
          · refine ⟨fun hnil => h1 (by simp [hnil]), fun hdot => h1 (by simp [hdot]), h2,
              hsl a (List.mem_cons_self _ _)⟩
          · exact hacc a ha2
        rcases acc with _ | ⟨top, accTail⟩
        · rw [normSegs_cons_accNil, if_neg h1, if_neg h2] at hs
          exact normSegs_false_clean rest [seg] (by simpa using hpush) hrest s hs
        · rw [normSegs_cons_accCons, if_neg h1, if_neg h2] at hs
          exact normSegs_false_clean rest (seg :: top :: accTail) hpush hrest s hs

theorem normSegs_false_id : ∀ (segs acc : List (List Char)),
    (∀ s ∈ segs, s ≠ [] ∧ s ≠ str "." ∧ s ≠ str "..") →
    normSegs false acc segs = acc.reverse ++ segs
  | [], acc, _ => by
    rw [normSegs_nil, List.append_nil]
  | seg :: rest, acc, h => by
    have hseg := h seg (List.mem_cons_self _ _)
    have hrest : ∀ s ∈ rest, s ≠ [] ∧ s ≠ str "." ∧ s ≠ str ".." :=
      fun s hs => h s (List.mem_cons_of_mem _ hs)
    have h1 : ¬(seg = [] || seg = str ".") = true := by
      simp [hseg.1, hseg.2.1]
    rcases acc with _ | ⟨top, accTail⟩
    · rw [normSegs_cons_accNil, if_neg h1, if_neg hseg.2.2,
        normSegs_false_id rest [seg] hrest]
      simp
    · rw [normSegs_cons_accCons, if_neg h1, if_neg hseg.2.2,
        normSegs_false_id rest (seg :: top :: accTail) hrest]
      simp

theorem endsWith_slash_iff (l : List Char) :
    jsEndsWith (str "/") l = true ↔ l.getLast? = some '/' := by
  unfold jsEndsWith
  rw [List.isSuffixOf_iff_suffix, List.getLast?_eq_some_iff]
  constructor
  · rintro ⟨t, ht⟩
    exact ⟨t, ht.symm⟩
  · rintro ⟨ys, hys⟩
    exact ⟨ys, hys.symm⟩

theorem intercalate_single (r : List Char) : List.intercalate (str "/") [r] = r := by
  simp [List.intercalate]

theorem intercalate_cons2 (a b : List Char) (t : List (List Char)) :
    List.intercalate (str "/") (a :: b :: t) =
      a ++ str "/" ++ List.intercalate (str "/") (b :: t) := by
  simp [List.intercalate, List.intersperse]

theorem intercalate_clean_ne_nil : ∀ (R : List (List Char)), R ≠ [] →
    (∀ s ∈ R, s ≠ []) → List.intercalate (str "/") R ≠ []
  | [], h, _ => absurd rfl h
  | [r], _, h => by
    rw [intercalate_single]
    exact h r (List.mem_cons_self _ _)
  | r1 :: r2 :: t, _, h => by
    rw [intercalate_cons2]
    intro hcontra
    rcases List.append_eq_nil.mp (List.append_eq_nil.mp hcontra).1 with ⟨h1, _⟩
    exact h r1 (List.mem_cons_self _ _) h1

theorem intercalate_clean_no_trailing : ∀ (R : List (List Char)), R ≠ [] →
    (∀ s ∈ R, s ≠ [] ∧ '/' ∉ s) →
    jsEndsWith (str "/") (List.intercalate (str "/") R) = false
  | [], h, _ => absurd rfl h
  | [r], _, h => by
    rw [intercalate_single]
    by_contra hc
    rw [Bool.not_eq_false, endsWith_slash_iff, List.getLast?_eq_some_iff] at hc
    rcases hc with ⟨ys, rfl⟩
    exact (h _ (List.mem_cons_self _ _)).2 (List.mem_append_right ys (by simp))
  | r1 :: r2 :: t, _, h => by
    rw [intercalate_cons2]
    have hrec := intercalate_clean_no_trailing (r2 :: t) (by simp)
      (fun s hs => h s (List.mem_cons_of_mem _ hs))
    have hne := intercalate_clean_ne_nil (r2 :: t) (by simp)
      (fun s hs => (h s (List.mem_cons_of_mem _ hs)).1)
    rcases hX : (List.intercalate (str "/") (r2 :: t)).getLast? with _ | c
    · exact absurd (List.getLast?_eq_none_iff.mp hX) hne
    · have hgl : (r1 ++ str "/" ++ List.intercalate (str "/") (r2 :: t)).getLast? = some c := by
        rw [List.getLast?_append, hX]
        rfl
      by_contra hc2
      rw [Bool.not_eq_false, endsWith_slash_iff, hgl] at hc2
      have hc3 : c = '/' := Option.some.inj hc2
      have : jsEndsWith (str "/") (List.intercalate (str "/") (r2 :: t)) = true := by
        rw [endsWith_slash_iff, hX, hc3]
      rw [hrec] at this
      exact Bool.noConfusion this

theorem splitOn_slash_cons (l : List Char) : ('/' :: l).splitOn '/' = [] :: l.splitOn '/' := by
  simp [List.splitOn, List.splitOnP_cons]

theorem pnormalize_presolve (dir p : List Char) :
    pnormalize (presolve dir p) = presolve dir p := by
  unfold presolve
  rcases hR : normSegs false [] ((presolveCombined dir p).splitOn '/') with _ | ⟨r0, t⟩
  · simp only [List.intercalate, List.intersperse, List.flatten]
    decide
  · have hclean : ∀ s ∈ r0 :: t, cleanSeg s := by
      rw [← hR]
      exact normSegs_false_clean _ _ (by simp) (fun s hs => splitOn_parts '/' _ s hs)
    have hXne : List.intercalate (str "/") (r0 :: t) ≠ [] :=
      intercalate_clean_ne_nil _ (by simp) (fun s hs => (hclean s hs).1)
    have hXnt : jsEndsWith (str "/") (List.intercalate (str "/") (r0 :: t)) = false :=
      intercalate_clean_no_trailing _ (by simp)
        (fun s hs => ⟨(hclean s hs).1, (hclean s hs).2.2.2⟩)
    have habs : jsStartsWith (str "/") ('/' :: List.intercalate (str "/") (r0 :: t)) = true := by
      simp [jsStartsWith, str, List.isPrefixOf]
    have htrail : jsEndsWith (str "/") ('/' :: List.intercalate (str "/") (r0 :: t)) = false := by
      by_contra hc
      rw [Bool.not_eq_false, endsWith_slash_iff] at hc
      have h2 : ('/' :: List.intercalate (str "/") (r0 :: t)).getLast? =
          (List.intercalate (str "/") (r0 :: t)).getLast?.or (some '/') := by
        have hrepr : ('/' :: List.intercalate (str "/") (r0 :: t)) =
            ['/'] ++ List.intercalate (str "/") (r0 :: t) := rfl
        rw [hrepr, List.getLast?_append]
        rfl
      rw [h2] at hc
      rcases hX2 : (List.intercalate (str "/") (r0 :: t)).getLast? with _ | c
      · exact hXne (List.getLast?_eq_none_iff.mp hX2)
      · rw [hX2] at hc
        have hcc : c = '/' := Option.some.inj hc
        have htrue : jsEndsWith (str "/") (List.intercalate (str "/") (r0 :: t)) = true :=
          (endsWith_slash_iff _).mpr (by rw [hX2, hcc])
        rw [hXnt] at htrue
        exact Bool.noConfusion htrue
    have hsplit2 : (List.intercalate (str "/") (r0 :: t)).splitOn '/' = r0 :: t := by
      have hs : str "/" = ['/'] := rfl
      rw [hs]
      exact List.splitOn_intercalate (r0 :: t) '/' (fun l hl => (hclean l hl).2.2.2)
        (List.cons_ne_nil _ _)
    unfold pnormalize
    rw [if_neg (by simp)]
    simp only [habs, htrail, splitOn_slash_cons, hsplit2, Bool.not_true, Bool.and_false,
      Bool.false_eq_true, if_false, if_true]
    rw [normSegs_cons_accNil, if_pos (by simp),
      normSegs_false_id (r0 :: t) [] (fun s hs =>
        ⟨(hclean s hs).1, (hclean s hs).2.1, (hclean s hs).2.2.1⟩)]
    simp

theorem presolve_trailing (dir p : List Char) :
    presolve dir p = ['/'] ∨ jsEndsWith (str "/") (presolve dir p) = false := by
  unfold presolve
  rcases hR : normSegs false [] ((presolveCombined dir p).splitOn '/') with _ | ⟨r0, t⟩
  · left
    simp [List.intercalate, List.intersperse, List.flatten]
  · right
    have hclean : ∀ s ∈ r0 :: t, cleanSeg s := by
      rw [← hR]
      exact normSegs_false_clean _ _ (by simp) (fun s hs => splitOn_parts '/' _ s hs)
    have hXne : List.intercalate (str "/") (r0 :: t) ≠ [] :=
      intercalate_clean_ne_nil _ (by simp) (fun s hs => (hclean s hs).1)
    have hXnt : jsEndsWith (str "/") (List.intercalate (str "/") (r0 :: t)) = false :=
      intercalate_clean_no_trailing _ (by simp)
        (fun s hs => ⟨(hclean s hs).1, (hclean s hs).2.2.2⟩)
    by_contra hc
    rw [Bool.not_eq_false, endsWith_slash_iff] at hc
    have h2 : ('/' :: List.intercalate (str "/") (r0 :: t)).getLast? =
        (List.intercalate (str "/") (r0 :: t)).getLast?.or (some '/') := by
      have hrepr : ('/' :: List.intercalate (str "/") (r0 :: t)) =
          ['/'] ++ List.intercalate (str "/") (r0 :: t) := rfl
      rw [hrepr, List.getLast?_append]
      rfl
    rw [h2] at hc
    rcases hX2 : (List.intercalate (str "/") (r0 :: t)).getLast? with _ | c
    · exact hXne (List.getLast?_eq_none_iff.mp hX2)
    · rw [hX2] at hc
      have hcc : c = '/' := Option.some.inj hc
      have htrue : jsEndsWith (str "/") (List.intercalate (str "/") (r0 :: t)) = true :=
        (endsWith_slash_iff _).mpr (by rw [hX2, hcc])
      rw [hXnt] at htrue
      exact Bool.noConfusion htrue

/-- C2 (amended): round-trip holds under a segment-boundary condition. If the import literal
is relative, the source file path is non-blank, `findBestMatch` selects mapping `m`, `m`'s
stripped alias pattern is non-empty (so the converted string is truthy), and the remainder of
the resolved absolute path after `m`'s normalized stripped base is empty or starts with `/`,
then the converted import is the alias base (plus `/` + remainder) and joining the base with
that remainder reproduces the resolved absolute path. The boundary condition is necessary:
see the counterexample. -/
theorem claim_C2_roundTrip :
    ∀ (state : ResolverState) (p f : List Char) (m : PathMapping),
      isRelativeImport p = true →
      jsTrim f ≠ [] →
      findBestMatch state (presolve (pdirname f) p) = some m →
      stripSlashStar m.aliasPattern ≠ [] →
      ((presolve (pdirname f) p).drop
          (pnormalize (stripSlashStar m.resolvedBase)).length = [] ∨
        jsStartsWith (str "/")
          ((presolve (pdirname f) p).drop
            (pnormalize (stripSlashStar m.resolvedBase)).length) = true) →
      ∃ rem,
        (resolveImportPure state p f).convertedImport =
          some (if rem = [] then stripSlashStar m.aliasPattern
                else stripSlashStar m.aliasPattern ++ str "/" ++ rem) ∧
        pjoin (pnormalize (stripSlashStar m.resolvedBase)) rem = presolve (pdirname f) p := by
  intro state p f m hrel hf hbm halias hbound
  have hnorm : pnormalize (presolve (pdirname f) p) = presolve (pdirname f) p :=
    pnormalize_presolve _ _
  have hq : jsStartsWith (pnormalize (stripSlashStar m.resolvedBase))
      (presolve (pdirname f) p) = true := by
    have H := bestFold_char (pnormalize (presolve (pdirname f) p))
      (allMappings state.pathMappings) none 0
    unfold findBestMatch at hbm
    rcases H with ⟨heq, _⟩ | ⟨l1, m0, l2, _, hq0, _, _, _, heq⟩
    · rw [heq] at hbm
      exact Option.noConfusion hbm
    · rw [heq] at hbm
      have hm0 : m0 = m := Option.some.inj hbm
      subst hm0
      unfold qualifies at hq0
      rwa [hnorm] at hq0
  have hdecomp : pnormalize (stripSlashStar m.resolvedBase) ++
      (presolve (pdirname f) p).drop (pnormalize (stripSlashStar m.resolvedBase)).length =
      presolve (pdirname f) p :=
    List.prefix_iff_eq_append.mp (List.isPrefixOf_iff_prefix.mp hq)
  have hfne : f ≠ [] := fun h => hf (by rw [h]; rfl)
  have hemp : (f = [] || jsTrim f = []) = false := by simp [hfne, hf]
  rcases hbound with hb0 | hb1
  · have habs_eq : pnormalize (stripSlashStar m.resolvedBase) = presolve (pdirname f) p := by
      rw [hb0, List.append_nil] at hdecomp
      exact hdecomp
    have hconv : convertToAlias (presolve (pdirname f) p) m =
        some (stripSlashStar m.aliasPattern) := by
      simp only [convertToAlias, hnorm]
      rw [if_neg (by rw [hq]; simp), hb0]
      rfl
    refine ⟨[], ?_, ?_⟩
    · simp only [resolveImportPure, hrel, Bool.not_true, Bool.false_eq_true, if_false, hemp,
        hbm, hconv]
      rw [if_neg halias]
      rfl
    · have hpj : pjoin (pnormalize (stripSlashStar m.resolvedBase)) [] =
          pnormalize (pnormalize (stripSlashStar m.resolvedBase)) := by
        unfold pjoin
        rw [if_neg (by simp [pnormalize_ne_nil]), if_neg (by simp [pnormalize_ne_nil]),
          if_pos rfl]
      rw [hpj, habs_eq, hnorm]
  · have hpre2 := List.isPrefixOf_iff_prefix.mp hb1
    rcases hpre2 with ⟨t, ht⟩
    have hr' : (presolve (pdirname f) p).drop
        (pnormalize (stripSlashStar m.resolvedBase)).length = '/' :: t := ht.symm
    have hr'ne : t ≠ [] := by
      intro h0
      subst h0
      have habs2 : presolve (pdirname f) p =
          pnormalize (stripSlashStar m.resolvedBase) ++ ['/'] := by
        rw [← hdecomp, hr']
      rcases presolve_trailing (pdirname f) p with h | h
      · rw [h] at habs2
        have hlen := congrArg List.length habs2
        simp at hlen
        exact absurd hlen (pnormalize_ne_nil _)
      · have htr : jsEndsWith (str "/") (presolve (pdirname f) p) = true := by
          rw [endsWith_slash_iff, habs2, List.getLast?_append]
          rfl
        rw [h] at htr
        exact Bool.noConfusion htr
    have hconv : convertToAlias (presolve (pdirname f) p) m =
        some (stripSlashStar m.aliasPattern ++ str "/" ++ t) := by
      simp only [convertToAlias, hnorm]
      rw [if_neg (by rw [hq]; simp), hr']
      have hsw : jsStartsWith (str "/") ('/' :: t) = true := by
        simp [jsStartsWith, str, List.isPrefixOf]
      have hdrop : List.drop 1 ('/' :: t) = t := rfl
      rw [hsw, if_pos rfl, hdrop, if_neg hr'ne]
    refine ⟨t, ?_, ?_⟩
    · simp only [resolveImportPure, hrel, Bool.not_true, Bool.false_eq_true, if_false, hemp,
        hbm, hconv]
      rw [if_neg (show ¬(stripSlashStar m.aliasPattern ++ str "/" ++ t = []) by
        simp [str]), if_neg hr'ne]
    · unfold pjoin
      rw [if_neg (by simp [pnormalize_ne_nil]), if_neg (by simp [pnormalize_ne_nil]),
        if_neg hr'ne]
      have hrw : pnormalize (stripSlashStar m.resolvedBase) ++ str "/" ++ t =
          presolve (pdirname f) p := by
        rw [← hdecomp, hr']
        rw [List.append_assoc]
        rfl
      rw [hrw, hnorm]

def mpC2 : PathMapping := ⟨str "@/*", str "./src/*", str "/p/src"⟩

def stC2 : ResolverState := createPathResolver [(str "@", [mpC2])]

/-- C2 counterexample to the claim as stated: the qualifying test is a raw string-prefix
test, so base `/p/src` matches `/p/srcfoo/x` without a segment boundary; the conversion
succeeds with remainder `foo/x`, but joining `/p/src` with `foo/x` gives `/p/src/foo/x`,
not the resolved path `/p/srcfoo/x`. -/
theorem claim_C2_counterexample :
    (resolveImportPure stC2 (str "../srcfoo/x") (str "/p/a/f.ts")).convertedImport =
      some (stripSlashStar mpC2.aliasPattern ++ str "/" ++ str "foo/x") ∧
    findBestMatch stC2 (presolve (pdirname (str "/p/a/f.ts")) (str "../srcfoo/x")) =
      some mpC2 ∧
    pjoin (pnormalize (stripSlashStar mpC2.resolvedBase)) (str "foo/x") ≠
      presolve (pdirname (str "/p/a/f.ts")) (str "../srcfoo/x") := by decide

/-- Witness for C2: a concrete well-behaved conversion where the round-trip holds. -/
theorem claim_C2_roundTrip_witness :
    ∃ rem,
      (resolveImportPure stC2 (str "../components/Button")
          (str "/p/src/pages/Home.tsx")).convertedImport =
        some (if rem = [] then stripSlashStar mpC2.aliasPattern
              else stripSlashStar mpC2.aliasPattern ++ str "/" ++ rem) ∧
      pjoin (pnormalize (stripSlashStar mpC2.resolvedBase)) rem =
        presolve (pdirname (str "/p/src/pages/Home.tsx")) (str "../components/Button") :=
  claim_C2_roundTrip stC2 (str "../components/Button") (str "/p/src/pages/Home.tsx") mpC2
    (by decide) (by decide) (by decide) (by decide) (by decide)

/-- Spec-side rendering of `rewriteContent` (spec section 4.5): walk the
matches left to right; text between spans is copied from the input
byte-for-byte, and each span whose import path has a conversion is
replaced by the rewritten statement. -/
def renderRewrites (cmap : List (List Char × List Char)) (content : List Char) :
    Nat → List ImportMatch → List Char
  | pos, [] => content.drop pos
  | pos, im :: rest =>
    match jsMapGet im.importPath cmap with
    | some conv =>
      (content.drop pos).take (im.startIndex - pos) ++
        replaceImportPathInStatement im.fullMatch im.importPath conv ++
        renderRewrites cmap content im.endIndex rest
    | none => renderRewrites cmap content pos rest

/-- The matches describe disjoint, ordered, in-bounds spans of the
content, and each `fullMatch` is the actual text of its span. -/
def matchesConsistent (content : List Char) : Nat → List ImportMatch → Bool
  | _, [] => true
  | pos, im :: rest =>
    decide (pos ≤ im.startIndex) && decide (im.startIndex < im.endIndex) &&
      decide (im.endIndex ≤ content.length) &&
      decide (jsSlice content im.startIndex im.endIndex = im.fullMatch) &&
      matchesConsistent content im.endIndex rest

theorem matchesConsistent_mono (content : List Char) (p q : Nat) (ims : List ImportMatch)
    (hpq : p ≤ q) (h : matchesConsistent content q ims = true) :
    matchesConsistent content p ims = true := by
  cases ims with
  | nil => rfl
  | cons im rest =>
    simp only [matchesConsistent, Bool.and_eq_true, decide_eq_true_eq] at h ⊢
    obtain ⟨⟨⟨⟨h1, h2⟩, h3⟩, h4⟩, h5⟩ := h
    exact ⟨⟨⟨⟨le_trans hpq h1, h2⟩, h3⟩, h4⟩, h5⟩

theorem consistent_lb (content : List Char) : ∀ (ims : List ImportMatch) (pos : Nat),
    matchesConsistent content pos ims = true → ∀ n ∈ ims, pos ≤ n.startIndex := by
  intro ims
  induction ims with
  | nil =>
    intro pos _ n hn
    exact absurd hn (List.not_mem_nil n)
  | cons im rest ih =>
    intro pos h n hn
    simp only [matchesConsistent, Bool.and_eq_true, decide_eq_true_eq] at h
    obtain ⟨⟨⟨⟨h1, h2⟩, h3⟩, h4⟩, h5⟩ := h
    rcases List.mem_cons.mp hn with rfl | hn'
    · exact h1
    · exact le_trans (le_trans h1 (le_of_lt h2)) (ih im.endIndex h5 n hn')

theorem insDesc_last (m : ImportMatch) : ∀ (l : List ImportMatch),
    (∀ n ∈ l, m.startIndex < n.startIndex) → insDesc m l = l ++ [m] := by
  intro l
  induction l with
  | nil => intro _; rfl
  | cons n ns ih =>
    intro h
    have hn := h n (List.mem_cons_self n ns)
    simp only [insDesc]
    rw [if_neg (by omega), ih (fun k hk => h k (List.mem_cons_of_mem n hk))]
    rfl

theorem sortDesc_reverse (content : List Char) : ∀ (ims : List ImportMatch) (pos : Nat),
    matchesConsistent content pos ims = true → insertionSortDesc ims = ims.reverse := by
  intro ims
  induction ims with
  | nil => intro pos _; rfl
  | cons im rest ih =>
    intro pos h
    simp only [matchesConsistent, Bool.and_eq_true, decide_eq_true_eq] at h
    obtain ⟨⟨⟨⟨h1, h2⟩, h3⟩, h4⟩, h5⟩ := h
    simp only [insertionSortDesc]
    rw [ih im.endIndex h5]
    rw [insDesc_last im rest.reverse (fun n hn =>
      lt_of_lt_of_le h2 (consistent_lb content rest im.endIndex h5 n (List.mem_reverse.mp hn)))]
    rw [List.reverse_cons]

theorem take_glue (content : List Char) (pos s : Nat) (h : pos ≤ s) :
    content.take pos ++ (content.drop pos).take (s - pos) = content.take s := by
  rw [← List.take_add, Nat.add_sub_cancel' h]

theorem render_nilmap (content : List Char) : ∀ (ims : List ImportMatch) (pos : Nat),
    renderRewrites [] content pos ims = content.drop pos := by
  intro ims
  induction ims with
  | nil => intro pos; rfl
  | cons im rest ih => intro pos; simpa only [renderRewrites, jsMapGet] using ih pos

theorem render_cons_none (cmap : List (List Char × List Char)) (content : List Char)
    (pos : Nat) (im : ImportMatch) (rest : List ImportMatch)
    (hg : jsMapGet im.importPath cmap = none) :
    renderRewrites cmap content pos (im :: rest) = renderRewrites cmap content pos rest := by
  simp only [renderRewrites, hg]

theorem render_cons_some (cmap : List (List Char × List Char)) (content : List Char)
    (pos : Nat) (im : ImportMatch) (rest : List ImportMatch) (conv : List Char)
    (hg : jsMapGet im.importPath cmap = some conv) :
    renderRewrites cmap content pos (im :: rest) =
      (content.drop pos).take (im.startIndex - pos) ++
        replaceImportPathInStatement im.fullMatch im.importPath conv ++
        renderRewrites cmap content im.endIndex rest := by
  simp only [renderRewrites, hg]

theorem replaceStep_none (cmap : List (List Char × List Char)) (mc : List Char)
    (im : ImportMatch) (hg : jsMapGet im.importPath cmap = none) :
    replaceStep cmap mc im = mc := by
  simp only [replaceStep, hg]

theorem replaceStep_some (cmap : List (List Char × List Char)) (mc : List Char)
    (im : ImportMatch) (conv : List Char) (hg : jsMapGet im.importPath cmap = some conv) :
    replaceStep cmap mc im =
      jsSlice mc 0 im.startIndex ++
        replaceImportPathInStatement im.fullMatch im.importPath conv ++
        mc.drop im.endIndex := by
  simp only [replaceStep, hg]

theorem render_shift (cmap : List (List Char × List Char)) (content : List Char) :
    ∀ (rest : List ImportMatch) (pos e : Nat), pos ≤ e →
      matchesConsistent content e rest = true →
      content.take pos ++ renderRewrites cmap content pos rest =
        content.take e ++ renderRewrites cmap content e rest := by
  intro rest
  induction rest with
  | nil =>
    intro pos e _ _
    simp only [renderRewrites, List.take_append_drop]
  | cons im r ih =>
    intro pos e hpe h
    simp only [matchesConsistent, Bool.and_eq_true, decide_eq_true_eq] at h
    obtain ⟨⟨⟨⟨h1, h2⟩, h3⟩, h4⟩, h5⟩ := h
    cases hg : jsMapGet im.importPath cmap with
    | none =>
      rw [render_cons_none cmap content pos im r hg, render_cons_none cmap content e im r hg]
      exact ih pos e hpe
        (matchesConsistent_mono content e im.endIndex r (le_trans h1 (le_of_lt h2)) h5)
    | some conv =>
      rw [render_cons_some cmap content pos im r conv hg,
        render_cons_some cmap content e im r conv hg]
      conv_lhs => rw [← List.append_assoc, ← List.append_assoc,
        take_glue content pos im.startIndex (le_trans hpe h1)]
      conv_rhs => rw [← List.append_assoc, ← List.append_assoc,
        take_glue content e im.startIndex h1]

theorem foldr_render (cmap : List (List Char × List Char)) (content : List Char) :
    ∀ (ims : List ImportMatch) (pos : Nat), matchesConsistent content pos ims = true →
      List.foldr (fun im acc => replaceStep cmap acc im) content ims =
        content.take pos ++ renderRewrites cmap content pos ims := by
  intro ims
  induction ims with
  | nil =>
    intro pos _
    simp only [List.foldr_nil, renderRewrites, List.take_append_drop]
  | cons im rest ih =>
    intro pos h
    simp only [matchesConsistent, Bool.and_eq_true, decide_eq_true_eq] at h
    obtain ⟨⟨⟨⟨h1, h2⟩, h3⟩, h4⟩, h5⟩ := h
    simp only [List.foldr_cons]
    rw [ih im.endIndex h5]
    cases hg : jsMapGet im.importPath cmap with
    | none =>
      rw [replaceStep_none cmap _ im hg, render_cons_none cmap content pos im rest hg]
      exact (render_shift cmap content rest pos im.endIndex
        (le_trans h1 (le_of_lt h2)) h5).symm
    | some conv =>
      rw [replaceStep_some cmap _ im conv hg, render_cons_some cmap content pos im rest conv hg]
      have hlen : (content.take im.endIndex).length = im.endIndex := by
        rw [List.length_take]; omega
      have hRtake : ((content.take im.endIndex ++
          renderRewrites cmap content im.endIndex rest).take im.startIndex) =
          content.take im.startIndex := by
        rw [List.take_append_of_le_length (by omega), List.take_take,
          Nat.min_eq_left (le_of_lt h2)]
      have hRdrop : ((content.take im.endIndex ++
          renderRewrites cmap content im.endIndex rest).drop im.endIndex) =
          renderRewrites cmap content im.endIndex rest :=
        List.drop_left' hlen
      unfold jsSlice
      rw [List.drop_zero, hRtake, hRdrop]
      conv_rhs => rw [← List.append_assoc, ← List.append_assoc,
        take_glue content pos im.startIndex h1]

theorem mem_insDesc (x m : ImportMatch) : ∀ (l : List ImportMatch),
    x ∈ insDesc m l ↔ x = m ∨ x ∈ l := by
  intro l
  induction l with
  | nil => simp [insDesc]
  | cons n ns ih =>
    simp only [insDesc]
    split
    · simp [List.mem_cons]
    · simp only [List.mem_cons, ih]
      tauto

theorem mem_insertionSortDesc (x : ImportMatch) : ∀ (l : List ImportMatch),
    x ∈ insertionSortDesc l ↔ x ∈ l := by
  intro l
  induction l with
  | nil => simp [insertionSortDesc]
  | cons m ms ih =>
    simp only [insertionSortDesc, mem_insDesc, ih, List.mem_cons]

theorem foldl_replaceStep_id (cmap : List (List Char × List Char)) :
    ∀ (l : List ImportMatch) (content : List Char),
      (∀ im ∈ l, jsMapGet im.importPath cmap = none) →
      l.foldl (replaceStep cmap) content = content := by
  intro l
  induction l with
  | nil => intro content _; rfl
  | cons im rest ih =>
    intro content h
    simp only [List.foldl_cons]
    rw [replaceStep_none cmap content im (h im (List.mem_cons_self im rest)),
      ih content (fun k hk => h k (List.mem_cons_of_mem im hk))]

/-- C3 (amended): when the matches describe actual, ordered, disjoint,
in-bounds spans of the content, `replaceImports` equals the left-to-right
rendering that copies all text outside converted spans byte-for-byte and
rewrites each converted span through `replaceImportPathInStatement`; and
when no match's import path has a conversion the content is returned
unchanged. For arbitrary (inconsistent) match lists the frame property
fails: see the counterexample. -/
theorem claim_C3_frame (content : List Char) (imports : List ImportMatch)
    (conversions : List ConversionResult) :
    (matchesConsistent content 0 imports = true →
      replaceImports content imports conversions =
        renderRewrites (buildConversionMap conversions) content 0 imports) ∧
    ((∀ im ∈ imports,
        jsMapGet im.importPath (buildConversionMap conversions) = none) →
      replaceImports content imports conversions = content) := by
  constructor
  · intro h
    unfold replaceImports
    by_cases hc : buildConversionMap conversions = []
    · rw [if_pos hc, hc, render_nilmap content imports 0, List.drop_zero]
    · rw [if_neg hc, sortDesc_reverse content imports 0 h, List.foldl_reverse,
        foldr_render (buildConversionMap conversions) content imports 0 h,
        List.take_zero, List.nil_append]
  · intro h
    unfold replaceImports
    by_cases hc : buildConversionMap conversions = []
    · rw [if_pos hc]
    · rw [if_neg hc]
      exact foldl_replaceStep_id (buildConversionMap conversions)
        (insertionSortDesc imports) content
        (fun im him => h im ((mem_insertionSortDesc im imports).mp him))

def imCE : ImportMatch := ⟨str "x", str "./p", 0, 0, ImportType.es6⟩

def convCE : ConversionResult := ⟨str "./p", some (str "@p"), str ""⟩

/-- C3 counterexample to the claim as stated over every match list:
`replaceImports` trusts the matches' spans and `fullMatch` text, so a
match with the empty span [0,0) and a fabricated `fullMatch` makes the
output differ from the input outside every converted span. -/
theorem claim_C3_counterexample :
    replaceImports (str "ab") [imCE] [convCE] = str "xab" ∧
    imCE.startIndex = 0 ∧ imCE.endIndex = 0 ∧ (str "xab" : List Char) ≠ str "ab" := by
  decide

def fullC3 : List Char := str "import \x7b A \x7d from " ++ [sq] ++ str "./a" ++ [sq]

def contentC3 : List Char := fullC3 ++ str ";"

def imC3 : ImportMatch := ⟨fullC3, str "./a", 0, fullC3.length, ImportType.es6⟩

def convC3 : ConversionResult := ⟨str "./a", some (str "@/a"), str ""⟩

/-- Witness for C3: a real import statement with a consistent match. -/
theorem claim_C3_frame_witness :
    (replaceImports contentC3 [imC3] [convC3] =
      renderRewrites (buildConversionMap [convC3]) contentC3 0 [imC3]) ∧
    replaceImports contentC3 [imC3] [] = contentC3 :=
  ⟨(claim_C3_frame contentC3 [imC3] [convC3]).1 (by decide),
   (claim_C3_frame contentC3 [imC3] []).2 (by decide)⟩

theorem startsWith_dotSlash (x : List Char) :
    jsStartsWith (str "./") ('.' :: '/' :: x) = true := by
  simp [jsStartsWith, str, List.isPrefixOf]

theorem startsWith_dotDotSlash (x : List Char) :
    jsStartsWith (str "../") ('.' :: '.' :: '/' :: x) = true := by
  simp [jsStartsWith, str, List.isPrefixOf]

theorem jsTrim_relative (p : List Char) (h : isRelativeImport p = true) :
    isRelativeImport (jsTrim p) = true := by
  unfold isRelativeImport at h ⊢
  rw [Bool.or_eq_true] at h ⊢
  rcases h with h | h
  · obtain ⟨t, ht⟩ := List.isPrefixOf_iff_prefix.mp h
    have hp : p = '.' :: '/' :: t := ht.symm
    subst hp
    left
    unfold jsTrim
    rw [List.dropWhile_cons, if_neg (by decide)]
    rw [show ('.' :: '/' :: t).reverse = t.reverse ++ ['/', '.'] by simp]
    rw [List.dropWhile_append]
    split
    · rw [show List.dropWhile jsWhitespace ['/', '.'] = ['/', '.'] by decide]
      decide
    · rw [List.reverse_append]
      exact startsWith_dotSlash _
  · obtain ⟨t, ht⟩ := List.isPrefixOf_iff_prefix.mp h
    have hp : p = '.' :: '.' :: '/' :: t := ht.symm
    subst hp
    right
    unfold jsTrim
    rw [List.dropWhile_cons, if_neg (by decide)]
    rw [show ('.' :: '.' :: '/' :: t).reverse = t.reverse ++ ['/', '.', '.'] by simp]
    rw [List.dropWhile_append]
    split
    · rw [show List.dropWhile jsWhitespace ['/', '.', '.'] = ['/', '.', '.'] by decide]
      decide
    · rw [List.reverse_append]
      exact startsWith_dotDotSlash _

theorem validate_relative (p vp : List Char) (hrel : isRelativeImport p = true)
    (hv : validateImportPath p = some vp) : isRelativeImport vp = true := by
  simp only [validateImportPath] at hv
  split at hv
  · exact Option.noConfusion hv
  · rw [← Option.some.inj hv]
    exact jsTrim_relative p hrel

theorem mem_pass_relative (content : List Char) (m : ImportMatch)
    (hm : m ∈ parseES6Imports content ++ parseCommonJSImports content ++
      parseDynamicImports content) :
    isRelativeImport m.importPath = true := by
  rw [List.mem_append, List.mem_append] at hm
  rcases hm with (hm | hm) | hm <;>
  · obtain ⟨r, _, hr⟩ := List.mem_filterMap.mp hm
    split at hr
    · rw [← Option.some.inj hr]
      assumption
    · exact Option.noConfusion hr

theorem mem_insAsc (x m : ImportMatch) : ∀ (l : List ImportMatch),
    x ∈ insAsc m l ↔ x = m ∨ x ∈ l := by
  intro l
  induction l with
  | nil => simp [insAsc]
  | cons n ns ih =>
    simp only [insAsc]
    split
    · simp [List.mem_cons]
    · simp only [List.mem_cons, ih]
      tauto

theorem mem_insertionSortAsc (x : ImportMatch) : ∀ (l : List ImportMatch),
    x ∈ insertionSortAsc l ↔ x ∈ l := by
  intro l
  induction l with
  | nil => simp [insertionSortAsc]
  | cons m ms ih =>
    simp only [insertionSortAsc, mem_insAsc, ih, List.mem_cons]

theorem mem_dedupeAux (x : ImportMatch) : ∀ (l : List ImportMatch) (prev : ImportMatch),
    x ∈ dedupeAux prev l → x ∈ l := by
  intro l
  induction l with
  | nil => intro prev h; exact absurd h (List.not_mem_nil x)
  | cons n ns ih =>
    intro prev h
    simp only [dedupeAux] at h
    split at h
    · exact List.mem_cons_of_mem n (ih n h)
    · rcases List.mem_cons.mp h with rfl | h'
      · exact List.mem_cons_self x ns
      · exact List.mem_cons_of_mem n (ih n h')

theorem mem_dedupeAdj (x : ImportMatch) (l : List ImportMatch)
    (h : x ∈ dedupeAdj l) : x ∈ l := by
  cases l with
  | nil => exact absurd h (List.not_mem_nil x)
  | cons m ms =>
    rcases List.mem_cons.mp h with rfl | h'
    · exact List.mem_cons_self x ms
    · exact List.mem_cons_of_mem m (mem_dedupeAux x ms m h')

theorem dedupeAux_key (s : Nat) (p : List Char) : ∀ (l : List ImportMatch)
    (prev : ImportMatch), (∃ x ∈ l, x.startIndex = s ∧ x.importPath = p) →
    (prev.startIndex = s ∧ prev.importPath = p) ∨
      ∃ y ∈ dedupeAux prev l, y.startIndex = s ∧ y.importPath = p := by
  intro l
  induction l with
  | nil =>
    intro prev h
    obtain ⟨x, hx, _⟩ := h
    exact absurd hx (List.not_mem_nil x)
  | cons n ns ih =>
    intro prev h
    obtain ⟨x, hx, hk⟩ := h
    by_cases hc : n.startIndex = prev.startIndex ∧ n.importPath = prev.importPath
    · have hceq : dedupeAux prev (n :: ns) = dedupeAux n ns := by
        simp only [dedupeAux]
        rw [if_pos (by simp [hc.1, hc.2])]
      rcases List.mem_cons.mp hx with rfl | hx'
      · exact Or.inl ⟨hc.1.symm.trans hk.1, hc.2.symm.trans hk.2⟩
      · rcases ih n ⟨x, hx', hk⟩ with hn | hy
        · exact Or.inl ⟨hc.1.symm.trans hn.1, hc.2.symm.trans hn.2⟩
        · rw [hceq]
          exact Or.inr hy
    · have hcne : dedupeAux prev (n :: ns) = n :: dedupeAux n ns := by
        simp only [dedupeAux]
        rw [if_neg (by simpa [Bool.and_eq_true, decide_eq_true_eq] using hc)]
      rw [hcne]
      rcases List.mem_cons.mp hx with rfl | hx'
      · exact Or.inr ⟨x, List.mem_cons_self x _, hk⟩
      · rcases ih n ⟨x, hx', hk⟩ with hn | ⟨y, hy, hyk⟩
        · exact Or.inr ⟨n, List.mem_cons_self n _, hn⟩
        · exact Or.inr ⟨y, List.mem_cons_of_mem n hy, hyk⟩

theorem dedupeAdj_key (s : Nat) (p : List Char) (l : List ImportMatch)
    (h : ∃ x ∈ l, x.startIndex = s ∧ x.importPath = p) :
    ∃ y ∈ dedupeAdj l, y.startIndex = s ∧ y.importPath = p := by
  cases l with
  | nil =>
    obtain ⟨x, hx, _⟩ := h
    exact absurd hx (List.not_mem_nil x)
  | cons m ms =>
    obtain ⟨x, hx, hk⟩ := h
    rcases List.mem_cons.mp hx with rfl | hx'
    · exact ⟨x, List.mem_cons_self x _, hk⟩
    · rcases dedupeAux_key s p ms m ⟨x, hx', hk⟩ with hm | ⟨y, hy, hyk⟩
      · exact ⟨m, List.mem_cons_self m _, hm⟩
      · exact ⟨y, List.mem_cons_of_mem m hy, hyk⟩

/-- C4 (amended): every match returned by `findImports` has a relative
(`./` or `../`) import path — in particular bare specifiers are never
captured — and every raw pass match whose literal survives validation
appears in the output under its start offset with the trimmed literal.
The unrestricted "captured iff relative" claim fails for literals
containing line breaks: see the counterexample. -/
theorem claim_C4_relativeOnly (content : List Char) :
    (∀ im ∈ findImports content, isRelativeImport im.importPath = true) ∧
    (∀ m ∈ parseES6Imports content ++ parseCommonJSImports content ++
        parseDynamicImports content,
      ∀ vp, validateImportPath m.importPath = some vp →
        ∃ im ∈ findImports content,
          im.startIndex = m.startIndex ∧ im.importPath = vp) := by
  constructor
  · intro im him
    unfold findImports at him
    have h1 := mem_dedupeAdj im _ him
    rw [mem_insertionSortAsc] at h1
    obtain ⟨m, hm, hmap⟩ := List.mem_filterMap.mp h1
    obtain ⟨vp, hv, heq⟩ := Option.map_eq_some.mp hmap
    rw [← heq]
    exact validate_relative m.importPath vp (mem_pass_relative content m hm) hv
  · intro m hm vp hv
    apply dedupeAdj_key
    refine ⟨{ m with importPath := vp }, ?_, rfl, rfl⟩
    rw [mem_insertionSortAsc]
    exact List.mem_filterMap.mpr ⟨m, hm, by rw [hv]; rfl⟩

/-- C4 counterexample to "a literal appears in the output iff it starts
with ./ or ../": a side-effect import whose relative literal contains a
line break is captured by the regex pass but discarded by
`validateImportPath`, so `findImports` returns nothing. -/
theorem claim_C4_counterexample :
    (∃ m ∈ parseES6Imports (str "import \"./a\nb\";"),
      isRelativeImport m.importPath = true) ∧
    findImports (str "import \"./a\nb\";") = [] := by
  decide

def contentC4w : List Char := str "import \"./x\";"

def imC4w : ImportMatch := ⟨str "import \"./x\"", str "./x", 0, 12, ImportType.es6⟩

/-- Witness for C4 at a concrete side-effect import. -/
theorem claim_C4_relativeOnly_witness :
    isRelativeImport imC4w.importPath = true ∧
    ∃ im ∈ findImports contentC4w,
      im.startIndex = imC4w.startIndex ∧ im.importPath = str "./x" :=
  ⟨(claim_C4_relativeOnly contentC4w).1 imC4w (by decide),
   (claim_C4_relativeOnly contentC4w).2 imC4w (by decide) (str "./x") (by decide)⟩

theorem matchLit_eq : ∀ (lit s u : List Char), matchLit lit s = some u → s = lit ++ u := by
  intro lit
  induction lit with
  | nil =>
    intro s u h
    simp only [matchLit] at h
    rw [Option.some.inj h, List.nil_append]
  | cons c cs ih =>
    intro s u h
    cases s with
    | nil => exact Option.noConfusion h
    | cons d ds =>
      simp only [matchLit] at h
      split at h
      · rename_i hcd
        rw [List.cons_append, ← hcd, ih ds u h]
      · exact Option.noConfusion h

theorem matchChar_eq (c : Char) : ∀ (s r : List Char), matchChar c s = some r → s = c :: r := by
  intro s r h
  cases s with
  | nil => exact Option.noConfusion h
  | cons d ds =>
    simp only [matchChar] at h
    split at h
    · rename_i hdc
      rw [hdc, Option.some.inj h]
    · exact Option.noConfusion h

theorem many1_eq (p : Char → Bool) : ∀ (s r : List Char), many1 p s = some r →
    (∃ c cs, s = c :: cs ∧ p c = true) ∧ r = s.dropWhile p := by
  intro s r h
  cases s with
  | nil => exact Option.noConfusion h
  | cons c cs =>
    simp only [many1] at h
    split at h
    · rename_i hc
      exact ⟨⟨c, cs, rfl, hc⟩, by rw [← Option.some.inj h, List.dropWhile_cons, if_pos hc]⟩
    · exact Option.noConfusion h

theorem quoted_head : ∀ (s : List Char) (x : List Char × List Char), quoted s = some x →
    ∃ q t, s = q :: t ∧ isQuote q = true := by
  intro s x h
  cases s with
  | nil => exact Option.noConfusion h
  | cons c cs =>
    simp only [quoted] at h
    split at h
    · exact ⟨c, cs, rfl, by assumption⟩
    · exact Option.noConfusion h

theorem matchLit_suffix (lit s u : List Char) (h : matchLit lit s = some u) : u <:+ s :=
  ⟨lit, (matchLit_eq lit s u h).symm⟩

theorem matchChar_suffix (c : Char) (s r : List Char) (h : matchChar c s = some r) : r <:+ s :=
  ⟨[c], (matchChar_eq c s r h).symm⟩

theorem dropWhile_suffix (p : Char → Bool) (s : List Char) : s.dropWhile p <:+ s :=
  List.dropWhile_suffix p

theorem many1_suffix (p : Char → Bool) (s r : List Char) (h : many1 p s = some r) : r <:+ s := by
  rw [(many1_eq p s r h).2]
  exact List.dropWhile_suffix p

theorem quoted_suffix : ∀ (s : List Char) (x : List Char × List Char), quoted s = some x →
    x.2 <:+ s := by
  intro s x h
  cases s with
  | nil => exact Option.noConfusion h
  | cons c cs =>
    simp only [quoted] at h
    split at h
    · split at h
      · exact Option.noConfusion h
      · exact Option.noConfusion h
      · rename_i path rest hdrop hne
        have hx : x.2 = rest := by rw [← Option.some.inj h]
        rw [hx]
        have hcs : List.takeWhile (fun d => !isQuote d) cs ++ (path :: rest) = cs := by
          rw [← hdrop]
          exact List.takeWhile_append_dropWhile _ _
        refine List.IsSuffix.trans ?_ (List.suffix_cons c cs)
        refine ⟨List.takeWhile (fun d => !isQuote d) cs ++ [path], ?_⟩
        rw [List.append_assoc]
        simpa using hcs
    · exact Option.noConfusion h

theorem sig_named (s : List Char) (x : List Char × List Char) (h : matchNamed s = some x) :
    ∃ u, matchLit (str "import") s = some u ∧
      (u.dropWhile jsWhitespace).head? = some lbrace := by
  simp only [matchNamed, bind, Option.bind_eq_some] at h
  obtain ⟨u, hu, v, hv, w, hw, -⟩ := h
  refine ⟨u, hu, ?_⟩
  rw [← (many1_eq jsWhitespace u v hv).2, matchChar_eq lbrace v w hw]
  rfl

theorem sig_namespace (s : List Char) (x : List Char × List Char)
    (h : matchNamespace s = some x) :
    ∃ u, matchLit (str "import") s = some u ∧
      (u.dropWhile jsWhitespace).head? = some '*' := by
  simp only [matchNamespace, bind, Option.bind_eq_some] at h
  obtain ⟨u, hu, v, hv, w, hw, -⟩ := h
  refine ⟨u, hu, ?_⟩
  rw [← (many1_eq jsWhitespace u v hv).2, matchChar_eq '*' v w hw]
  rfl

theorem sig_side (s : List Char) (x : List Char × List Char) (h : matchSideEffect s = some x) :
    ∃ u, matchLit (str "import") s = some u ∧
      ∃ q, (u.dropWhile jsWhitespace).head? = some q ∧ isQuote q = true := by
  simp only [matchSideEffect, bind, Option.bind_eq_some] at h
  obtain ⟨u, hu, v, hv, hq⟩ := h
  obtain ⟨q, t, hv2, hq2⟩ := quoted_head v x hq
  refine ⟨u, hu, q, ?_, hq2⟩
  rw [← (many1_eq jsWhitespace u v hv).2, hv2]
  rfl

theorem sig_dynamic (s : List Char) (x : List Char × List Char) (h : matchDynamic s = some x) :
    ∃ u, matchLit (str "import") s = some u ∧
      (u.dropWhile jsWhitespace).head? = some '(' := by
  simp only [matchDynamic, bind, Option.bind_eq_some, many0] at h
  obtain ⟨u, hu, v, hv, -⟩ := h
  refine ⟨u, hu, ?_⟩
  rw [matchChar_eq '(' _ v hv]
  rfl

theorem sig_default (s : List Char) (x : List Char × List Char) (h : matchDefault s = some x) :
    ∃ u, matchLit (str "import") s = some u ∧
      (∃ c, (u.dropWhile jsWhitespace).head? = some c ∧ jsWordChar c = true) ∧
      (((u.dropWhile jsWhitespace).dropWhile jsWordChar).dropWhile
        jsWhitespace).head? = some 'f' := by
  simp only [matchDefault, bind, Option.bind_eq_some] at h
  obtain ⟨u, hu, v, hv, w, hw, y, hy, z, hz, -⟩ := h
  have hveq := (many1_eq jsWhitespace u v hv).2
  have hweq := (many1_eq jsWordChar v w hw).2
  obtain ⟨⟨c, cs, hvc, hc⟩, -⟩ := many1_eq jsWordChar v w hw
  refine ⟨u, hu, ⟨c, by rw [← hveq, hvc]; rfl, hc⟩, ?_⟩
  rw [← hveq, ← hweq, ← (many1_eq jsWhitespace w y hy).2, matchLit_eq (str "from") y z hz]
  rfl

theorem sig_mixed (s : List Char) (x : List Char × List Char) (h : matchMixed s = some x) :
    ∃ u, matchLit (str "import") s = some u ∧
      (∃ c, (u.dropWhile jsWhitespace).head? = some c ∧ jsWordChar c = true) ∧
      (((u.dropWhile jsWhitespace).dropWhile jsWordChar).dropWhile
        jsWhitespace).head? = some ',' := by
  simp only [matchMixed, bind, Option.bind_eq_some, many0] at h
  obtain ⟨u, hu, v, hv, w, hw, y, hy, -⟩ := h
  have hveq := (many1_eq jsWhitespace u v hv).2
  have hweq := (many1_eq jsWordChar v w hw).2
  obtain ⟨⟨c, cs, hvc, hc⟩, -⟩ := many1_eq jsWordChar v w hw
  refine ⟨u, hu, ⟨c, by rw [← hveq, hvc]; rfl, hc⟩, ?_⟩
  rw [← hveq, ← hweq, matchChar_eq ',' _ y hy]
  rfl

theorem sig_require (s : List Char) (x : List Char × List Char) (h : matchRequire s = some x) :
    ∃ u, matchLit (str "require") s = some u := by
  simp only [matchRequire, bind, Option.bind_eq_some, many0] at h
  obtain ⟨u, hu, -⟩ := h
  exact ⟨u, hu⟩

theorem head_some_uniq (v : List Char) (a b : Char) (h1 : v.head? = some a)
    (h2 : v.head? = some b) : a = b :=
  Option.some.inj (h1.symm.trans h2)

theorem quote_not_word (c : Char) (h : isQuote c = true) : jsWordChar c = false := by
  simp only [isQuote, Bool.or_eq_true, decide_eq_true_eq] at h
  rcases h with (h | h) | h <;> subst h <;> decide

theorem req_imp_clash (s u u' : List Char) (h : matchLit (str "import") s = some u)
    (h' : matchLit (str "require") s = some u') : False := by
  have h2 := matchLit_eq _ _ _ h'
  rw [matchLit_eq _ _ _ h] at h2
  have h3 := congrArg List.head? h2
  simp [str] at h3

theorem excl_named_default : ∀ s x y, matchNamed s = some x → matchDefault s = some y →
    False := by
  intro s x y hA hB
  obtain ⟨u, hu, hhA⟩ := sig_named s x hA
  obtain ⟨u', hu', ⟨c, hc, hcw⟩, -⟩ := sig_default s y hB
  cases Option.some.inj (hu.symm.trans hu')
  cases head_some_uniq _ _ _ hc hhA
  exact absurd hcw (by decide)

theorem excl_named_namespace : ∀ s x y, matchNamed s = some x → matchNamespace s = some y →
    False := by
  intro s x y hA hB
  obtain ⟨u, hu, hhA⟩ := sig_named s x hA
  obtain ⟨u', hu', hhB⟩ := sig_namespace s y hB
  cases Option.some.inj (hu.symm.trans hu')
  exact absurd (head_some_uniq _ _ _ hhA hhB) (by decide)

theorem excl_named_mixed : ∀ s x y, matchNamed s = some x → matchMixed s = some y →
    False := by
  intro s x y hA hB
  obtain ⟨u, hu, hhA⟩ := sig_named s x hA
  obtain ⟨u', hu', ⟨c, hc, hcw⟩, -⟩ := sig_mixed s y hB
  cases Option.some.inj (hu.symm.trans hu')
  cases head_some_uniq _ _ _ hc hhA
  exact absurd hcw (by decide)

theorem excl_named_side : ∀ s x y, matchNamed s = some x → matchSideEffect s = some y →
    False := by
  intro s x y hA hB
  obtain ⟨u, hu, hhA⟩ := sig_named s x hA
  obtain ⟨u', hu', q, hq, hqq⟩ := sig_side s y hB
  cases Option.some.inj (hu.symm.trans hu')
  cases head_some_uniq _ _ _ hq hhA
  exact absurd hqq (by decide)

theorem excl_named_dynamic : ∀ s x y, matchNamed s = some x → matchDynamic s = some y →
    False := by
  intro s x y hA hB
  obtain ⟨u, hu, hhA⟩ := sig_named s x hA
  obtain ⟨u', hu', hhB⟩ := sig_dynamic s y hB
  cases Option.some.inj (hu.symm.trans hu')
  exact absurd (head_some_uniq _ _ _ hhA hhB) (by decide)

theorem excl_default_namespace : ∀ s x y, matchDefault s = some x → matchNamespace s = some y →
    False := by
  intro s x y hA hB
  obtain ⟨u, hu, ⟨c, hc, hcw⟩, -⟩ := sig_default s x hA
  obtain ⟨u', hu', hhB⟩ := sig_namespace s y hB
  cases Option.some.inj (hu.symm.trans hu')
  cases head_some_uniq _ _ _ hc hhB
  exact absurd hcw (by decide)

theorem excl_default_mixed : ∀ s x y, matchDefault s = some x → matchMixed s = some y →
    False := by
  intro s x y hA hB
  obtain ⟨u, hu, -, hfA⟩ := sig_default s x hA
  obtain ⟨u', hu', -, hfB⟩ := sig_mixed s y hB
  cases Option.some.inj (hu.symm.trans hu')
  exact absurd (head_some_uniq _ _ _ hfA hfB) (by decide)

theorem excl_default_side : ∀ s x y, matchDefault s = some x → matchSideEffect s = some y →
    False := by
  intro s x y hA hB
  obtain ⟨u, hu, ⟨c, hc, hcw⟩, -⟩ := sig_default s x hA
  obtain ⟨u', hu', q, hq, hqq⟩ := sig_side s y hB
  cases Option.some.inj (hu.symm.trans hu')
  cases head_some_uniq _ _ _ hc hq
  rw [quote_not_word c hqq] at hcw
  exact Bool.noConfusion hcw

theorem excl_default_dynamic : ∀ s x y, matchDefault s = some x → matchDynamic s = some y →
    False := by
  intro s x y hA hB
  obtain ⟨u, hu, ⟨c, hc, hcw⟩, -⟩ := sig_default s x hA
  obtain ⟨u', hu', hhB⟩ := sig_dynamic s y hB
  cases Option.some.inj (hu.symm.trans hu')
  cases head_some_uniq _ _ _ hc hhB
  exact absurd hcw (by decide)

theorem excl_namespace_mixed : ∀ s x y, matchNamespace s = some x → matchMixed s = some y →
    False := by
  intro s x y hA hB
  obtain ⟨u, hu, hhA⟩ := sig_namespace s x hA
  obtain ⟨u', hu', ⟨c, hc, hcw⟩, -⟩ := sig_mixed s y hB
  cases Option.some.inj (hu.symm.trans hu')
  cases head_some_uniq _ _ _ hc hhA
  exact absurd hcw (by decide)

theorem excl_namespace_side : ∀ s x y, matchNamespace s = some x → matchSideEffect s = some y →
    False := by
  intro s x y hA hB
  obtain ⟨u, hu, hhA⟩ := sig_namespace s x hA
  obtain ⟨u', hu', q, hq, hqq⟩ := sig_side s y hB
  cases Option.some.inj (hu.symm.trans hu')
  cases head_some_uniq _ _ _ hq hhA
  exact absurd hqq (by decide)

theorem excl_namespace_dynamic : ∀ s x y, matchNamespace s = some x → matchDynamic s = some y →
    False := by
  intro s x y hA hB
  obtain ⟨u, hu, hhA⟩ := sig_namespace s x hA
  obtain ⟨u', hu', hhB⟩ := sig_dynamic s y hB
  cases Option.some.inj (hu.symm.trans hu')
  exact absurd (head_some_uniq _ _ _ hhA hhB) (by decide)

theorem excl_mixed_side : ∀ s x y, matchMixed s = some x → matchSideEffect s = some y →
    False := by
  intro s x y hA hB
  obtain ⟨u, hu, ⟨c, hc, hcw⟩, -⟩ := sig_mixed s x hA
  obtain ⟨u', hu', q, hq, hqq⟩ := sig_side s y hB
  cases Option.some.inj (hu.symm.trans hu')
  cases head_some_uniq _ _ _ hc hq
  rw [quote_not_word c hqq] at hcw
  exact Bool.noConfusion hcw

theorem excl_mixed_dynamic : ∀ s x y, matchMixed s = some x → matchDynamic s = some y →
    False := by
  intro s x y hA hB
  obtain ⟨u, hu, ⟨c, hc, hcw⟩, -⟩ := sig_mixed s x hA
  obtain ⟨u', hu', hhB⟩ := sig_dynamic s y hB
  cases Option.some.inj (hu.symm.trans hu')
  cases head_some_uniq _ _ _ hc hhB
  exact absurd hcw (by decide)

theorem excl_side_dynamic : ∀ s x y, matchSideEffect s = some x → matchDynamic s = some y →
    False := by
  intro s x y hA hB
  obtain ⟨u, hu, q, hq, hqq⟩ := sig_side s x hA
  obtain ⟨u', hu', hhB⟩ := sig_dynamic s y hB
  cases Option.some.inj (hu.symm.trans hu')
  cases head_some_uniq _ _ _ hq hhB
  exact absurd hqq (by decide)

theorem excl_require_named : ∀ s x y, matchRequire s = some x → matchNamed s = some y →
    False := by
  intro s x y hA hB
  obtain ⟨u, hu⟩ := sig_require s x hA
  obtain ⟨u', hu', -⟩ := sig_named s y hB
  exact req_imp_clash s u' u hu' hu

theorem excl_require_default : ∀ s x y, matchRequire s = some x → matchDefault s = some y →
    False := by
  intro s x y hA hB
  obtain ⟨u, hu⟩ := sig_require s x hA
  obtain ⟨u', hu', -, -⟩ := sig_default s y hB
  exact req_imp_clash s u' u hu' hu

theorem excl_require_namespace : ∀ s x y, matchRequire s = some x → matchNamespace s = some y →
    False := by
  intro s x y hA hB
  obtain ⟨u, hu⟩ := sig_require s x hA
  obtain ⟨u', hu', -⟩ := sig_namespace s y hB
  exact req_imp_clash s u' u hu' hu

theorem excl_require_mixed : ∀ s x y, matchRequire s = some x → matchMixed s = some y →
    False := by
  intro s x y hA hB
  obtain ⟨u, hu⟩ := sig_require s x hA
  obtain ⟨u', hu', -, -⟩ := sig_mixed s y hB
  exact req_imp_clash s u' u hu' hu

theorem excl_require_side : ∀ s x y, matchRequire s = some x → matchSideEffect s = some y →
    False := by
  intro s x y hA hB
  obtain ⟨u, hu⟩ := sig_require s x hA
  obtain ⟨u', hu', -⟩ := sig_side s y hB
  exact req_imp_clash s u' u hu' hu

theorem excl_require_dynamic : ∀ s x y, matchRequire s = some x → matchDynamic s = some y →
    False := by
  intro s x y hA hB
  obtain ⟨u, hu⟩ := sig_require s x hA
  obtain ⟨u', hu', -⟩ := sig_dynamic s y hB
  exact req_imp_clash s u' u hu' hu

theorem scanAux_lb (m : List Char → Option (List Char × List Char)) :
    ∀ (fuel : Nat) (s : List Char) (off : Nat) (r : RawMatch),
      r ∈ scanAux m fuel s off → off ≤ r.startIndex := by
  intro fuel
  induction fuel with
  | zero =>
    intro s off r hr
    cases s with
    | nil => exact absurd hr (List.not_mem_nil r)
    | cons c cs => exact absurd hr (List.not_mem_nil r)
  | succ fuel ih =>
    intro s off r hr
    cases s with
    | nil => exact absurd hr (List.not_mem_nil r)
    | cons c cs =>
      simp only [scanAux] at hr
      split at hr
      · split at hr
        · rcases List.mem_cons.mp hr with rfl | hr'
          · exact le_refl _
          · have := ih _ _ r hr'
            omega
        · have := ih cs (off + 1) r hr
          omega
      · have := ih cs (off + 1) r hr
        omega

theorem scanAux_sorted (m : List Char → Option (List Char × List Char)) :
    ∀ (fuel : Nat) (s : List Char) (off : Nat),
      List.Pairwise (fun a b => a.startIndex < b.startIndex) (scanAux m fuel s off) := by
  intro fuel
  induction fuel with
  | zero =>
    intro s off
    cases s with
    | nil => exact List.Pairwise.nil
    | cons c cs => exact List.Pairwise.nil
  | succ fuel ih =>
    intro s off
    cases s with
    | nil => exact List.Pairwise.nil
    | cons c cs =>
      simp only [scanAux]
      split
      · rename_i path rest hm
        split
        · rename_i hlt
          refine List.Pairwise.cons ?_ (ih _ _)
          intro b hb
          have h1 := scanAux_lb m fuel rest (off + ((c :: cs).length - rest.length)) b hb
          simp only [List.length_cons] at hlt h1 ⊢
          omega
        · exact ih cs (off + 1)
      · exact ih cs (off + 1)

theorem suffix_drop_eq (L r : List Char) (h : r <:+ L) :
    L.drop (L.length - r.length) = r := by
  obtain ⟨t, ht⟩ := h
  rw [← ht, List.length_append, Nat.add_sub_cancel, List.drop_left]

theorem scanAux_sound (m : List Char → Option (List Char × List Char))
    (hsuf : ∀ s x, m s = some x → x.2 <:+ s) (content : List Char) :
    ∀ (fuel off : Nat) (r : RawMatch), r ∈ scanAux m fuel (content.drop off) off →
      ∃ x, m (content.drop r.startIndex) = some x := by
  intro fuel
  induction fuel with
  | zero =>
    intro off r hr
    cases hs : content.drop off with
    | nil => rw [hs] at hr; exact absurd hr (List.not_mem_nil r)
    | cons c cs => rw [hs] at hr; exact absurd hr (List.not_mem_nil r)
  | succ fuel ih =>
    intro off r hr
    cases hs : content.drop off with
    | nil => rw [hs] at hr; exact absurd hr (List.not_mem_nil r)
    | cons c cs =>
      rw [hs] at hr
      simp only [scanAux] at hr
      split at hr
      · rename_i path rest hm
        split at hr
        · rename_i hlt
          rcases List.mem_cons.mp hr with rfl | hr'
          · show ∃ x, m (content.drop off) = some x
            rw [hs]
            exact ⟨(path, rest), hm⟩
          · apply ih (off + ((c :: cs).length - rest.length)) r
            have hrs : rest <:+ c :: cs := hsuf _ _ hm
            have hre : (c :: cs).drop ((c :: cs).length - rest.length) = rest :=
              suffix_drop_eq _ _ hrs
            have hdr : content.drop (off + ((c :: cs).length - rest.length)) = rest := by
              rw [← List.drop_drop, hs, hre]
            rw [hdr]
            exact hr'
        · apply ih (off + 1) r
          have hdr : content.drop (off + 1) = cs := by
            rw [← List.drop_drop, hs]
            rfl
          rw [hdr]
          exact hr
      · apply ih (off + 1) r
        have hdr : content.drop (off + 1) = cs := by
          rw [← List.drop_drop, hs]
          rfl
        rw [hdr]
        exact hr

theorem matchNamed_suffix : ∀ (s : List Char) (x : List Char × List Char),
    matchNamed s = some x → x.2 <:+ s := by
  intro s x h
  simp only [matchNamed, bind, Option.bind_eq_some, many0] at h
  obtain ⟨a, ha, b, hb, c, hc, d, hd, e, he, f, hf, g, hg, hq⟩ := h
  have h1 := (quoted_suffix _ _ hq).trans (many1_suffix _ _ _ hg)
  have h2 := h1.trans (matchLit_suffix _ _ _ hf)
  have h3 := h2.trans (many1_suffix _ _ _ he)
  have h4 := h3.trans ((matchChar_suffix _ _ _ hd).trans (List.dropWhile_suffix _))
  have h5 := h4.trans (matchChar_suffix _ _ _ hc)
  have h6 := h5.trans (many1_suffix _ _ _ hb)
  exact h6.trans (matchLit_suffix _ _ _ ha)

theorem matchDefault_suffix : ∀ (s : List Char) (x : List Char × List Char),
    matchDefault s = some x → x.2 <:+ s := by
  intro s x h
  simp only [matchDefault, bind, Option.bind_eq_some] at h
  obtain ⟨a, ha, b, hb, c, hc, d, hd, e, he, f, hf, hq⟩ := h
  have h1 := (quoted_suffix _ _ hq).trans (many1_suffix _ _ _ hf)
  have h2 := h1.trans (matchLit_suffix _ _ _ he)
  have h3 := h2.trans (many1_suffix _ _ _ hd)
  have h4 := h3.trans (many1_suffix _ _ _ hc)
  have h5 := h4.trans (many1_suffix _ _ _ hb)
  exact h5.trans (matchLit_suffix _ _ _ ha)

theorem matchNamespace_suffix : ∀ (s : List Char) (x : List Char × List Char),
    matchNamespace s = some x → x.2 <:+ s := by
  intro s x h
  simp only [matchNamespace, bind, Option.bind_eq_some] at h
  obtain ⟨a, ha, b, hb, c, hc, d, hd, e, he, f, hf, g, hg, i, hi, j, hj, k, hk, hq⟩ := h
  have h1 := (quoted_suffix _ _ hq).trans (many1_suffix _ _ _ hk)
  have h2 := h1.trans (matchLit_suffix _ _ _ hj)
  have h3 := h2.trans (many1_suffix _ _ _ hi)
  have h4 := h3.trans (many1_suffix _ _ _ hg)
  have h5 := h4.trans (many1_suffix _ _ _ hf)
  have h6 := h5.trans (matchLit_suffix _ _ _ he)
  have h7 := h6.trans (many1_suffix _ _ _ hd)
  have h8 := h7.trans (matchChar_suffix _ _ _ hc)
  have h9 := h8.trans (many1_suffix _ _ _ hb)
  exact h9.trans (matchLit_suffix _ _ _ ha)

theorem matchMixed_suffix : ∀ (s : List Char) (x : List Char × List Char),
    matchMixed s = some x → x.2 <:+ s := by
  intro s x h
  simp only [matchMixed, bind, Option.bind_eq_some, many0] at h
  obtain ⟨a, ha, b, hb, c, hc, d, hd, e, he, f, hf, g, hg, i, hi, j, hj, hq⟩ := h
  have h1 := (quoted_suffix _ _ hq).trans (many1_suffix _ _ _ hj)
  have h2 := h1.trans (matchLit_suffix _ _ _ hi)
  have h3 := h2.trans (many1_suffix _ _ _ hg)
  have h4 := h3.trans ((matchChar_suffix _ _ _ hf).trans (List.dropWhile_suffix _))
  have h5 := h4.trans ((matchChar_suffix _ _ _ he).trans (List.dropWhile_suffix _))
  have h6 := h5.trans ((matchChar_suffix _ _ _ hd).trans (List.dropWhile_suffix _))
  have h7 := h6.trans (many1_suffix _ _ _ hc)
  have h8 := h7.trans (many1_suffix _ _ _ hb)
  exact h8.trans (matchLit_suffix _ _ _ ha)

theorem matchSideEffect_suffix : ∀ (s : List Char) (x : List Char × List Char),
    matchSideEffect s = some x → x.2 <:+ s := by
  intro s x h
  simp only [matchSideEffect, bind, Option.bind_eq_some] at h
  obtain ⟨a, ha, b, hb, hq⟩ := h
  exact ((quoted_suffix _ _ hq).trans (many1_suffix _ _ _ hb)).trans
    (matchLit_suffix _ _ _ ha)

theorem matchRequire_suffix : ∀ (s : List Char) (x : List Char × List Char),
    matchRequire s = some x → x.2 <:+ s := by
  intro s x h
  simp only [matchRequire, bind, Option.bind_eq_some, many0, pure] at h
  obtain ⟨a, ha, b, hb, ⟨p, q⟩, hq, c, hc, hx⟩ := h
  have hx2 : x.2 = c := by rw [← Option.some.inj hx]
  rw [hx2]
  have h1 := matchChar_suffix _ _ _ hc
  have h2 := h1.trans (List.dropWhile_suffix _)
  have h3 := h2.trans (quoted_suffix _ (p, q) hq)
  have h4 := h3.trans (List.dropWhile_suffix _)
  have h5 := h4.trans (matchChar_suffix _ _ _ hb)
  have h6 := h5.trans (List.dropWhile_suffix _)
  exact h6.trans (matchLit_suffix _ _ _ ha)

theorem matchDynamic_suffix : ∀ (s : List Char) (x : List Char × List Char),
    matchDynamic s = some x → x.2 <:+ s := by
  intro s x h
  simp only [matchDynamic, bind, Option.bind_eq_some, many0, pure] at h
  obtain ⟨a, ha, b, hb, ⟨p, q⟩, hq, c, hc, hx⟩ := h
  have hx2 : x.2 = c := by rw [← Option.some.inj hx]
  rw [hx2]
  have h1 := matchChar_suffix _ _ _ hc
  have h2 := h1.trans (List.dropWhile_suffix _)
  have h3 := h2.trans (quoted_suffix _ (p, q) hq)
  have h4 := h3.trans (List.dropWhile_suffix _)
  have h5 := h4.trans (matchChar_suffix _ _ _ hb)
  have h6 := h5.trans (List.dropWhile_suffix _)
  exact h6.trans (matchLit_suffix _ _ _ ha)

theorem scan_disjoint (mA mB : List Char → Option (List Char × List Char))
    (hsA : ∀ s x, mA s = some x → x.2 <:+ s) (hsB : ∀ s x, mB s = some x → x.2 <:+ s)
    (hex : ∀ s x y, mA s = some x → mB s = some y → False) (content : List Char) :
    List.Disjoint ((scanPattern mA content).map RawMatch.startIndex)
      ((scanPattern mB content).map RawMatch.startIndex) := by
  intro s hA hB
  obtain ⟨rA, hrA, hkA⟩ := List.mem_map.mp hA
  obtain ⟨rB, hrB, hkB⟩ := List.mem_map.mp hB
  have hrA' : rA ∈ scanAux mA content.length (content.drop 0) 0 := by
    simpa [scanPattern] using hrA
  have hrB' : rB ∈ scanAux mB content.length (content.drop 0) 0 := by
    simpa [scanPattern] using hrB
  obtain ⟨xA, hxA⟩ := scanAux_sound mA hsA content content.length 0 rA hrA'
  obtain ⟨xB, hxB⟩ := scanAux_sound mB hsB content content.length 0 rB hrB'
  rw [hkA] at hxA
  rw [hkB] at hxB
  exact hex _ _ _ hxA hxB

theorem scan_starts_nodup (m : List Char → Option (List Char × List Char))
    (content : List Char) : ((scanPattern m content).map RawMatch.startIndex).Nodup := by
  have h2 : List.Pairwise (· < ·) ((scanPattern m content).map RawMatch.startIndex) := by
    rw [List.pairwise_map]
    exact scanAux_sorted m content.length content 0
  exact h2.imp Nat.ne_of_lt

theorem map_filterMap_sublist {α β γ : Type} (f : α → Option β) (ka : α → γ) (kb : β → γ)
    (hk : ∀ a b, f a = some b → kb b = ka a) :
    ∀ l : List α, List.Sublist ((l.filterMap f).map kb) (l.map ka) := by
  intro l
  induction l with
  | nil => simp
  | cons a l ih =>
    cases hf : f a with
    | none =>
      rw [List.filterMap_cons_none hf, List.map_cons]
      exact ih.cons _
    | some b =>
      rw [List.filterMap_cons_some hf, List.map_cons, List.map_cons, hk a b hf]
      exact ih.cons₂ _

theorem pairwise_insAsc (m : ImportMatch) (l : List ImportMatch)
    (h : List.Pairwise (fun a b => a.startIndex ≤ b.startIndex) l) :
    List.Pairwise (fun a b => a.startIndex ≤ b.startIndex) (insAsc m l) := by
  induction l with
  | nil => exact List.pairwise_singleton _ m
  | cons n ns ih =>
    simp only [insAsc]
    split
    · rename_i hmn
      refine List.Pairwise.cons ?_ h
      intro b hb
      rcases List.mem_cons.mp hb with rfl | hb'
      · exact hmn
      · exact le_trans hmn (List.rel_of_pairwise_cons h hb')
    · rename_i hmn
      refine List.Pairwise.cons ?_ (ih (List.Pairwise.sublist (List.sublist_cons_self n ns) h))
      intro b hb
      rcases (mem_insAsc b m ns).mp hb with rfl | hb'
      · omega
      · exact List.rel_of_pairwise_cons h hb'

theorem sorted_insertionSortAsc : ∀ (l : List ImportMatch),
    List.Pairwise (fun a b => a.startIndex ≤ b.startIndex) (insertionSortAsc l) := by
  intro l
  induction l with
  | nil => exact List.Pairwise.nil
  | cons m ms ih => exact pairwise_insAsc m (insertionSortAsc ms) ih

theorem dedupeAux_sublist : ∀ (l : List ImportMatch) (prev : ImportMatch),
    List.Sublist (dedupeAux prev l) l := by
  intro l
  induction l with
  | nil => intro prev; exact List.Sublist.refl _
  | cons n ns ih =>
    intro prev
    simp only [dedupeAux]
    split
    · exact (ih n).cons _
    · exact (ih n).cons₂ _

theorem dedupeAdj_sublist : ∀ (l : List ImportMatch), List.Sublist (dedupeAdj l) l := by
  intro l
  cases l with
  | nil => exact List.Sublist.refl _
  | cons m ms => exact (dedupeAux_sublist ms m).cons₂ _

theorem perm_insAsc (m : ImportMatch) : ∀ (l : List ImportMatch),
    List.Perm (insAsc m l) (m :: l) := by
  intro l
  induction l with
  | nil => exact List.Perm.refl _
  | cons n ns ih =>
    simp only [insAsc]
    split
    · exact List.Perm.refl _
    · exact (ih.cons n).trans (List.Perm.swap m n ns)

theorem perm_insertionSortAsc : ∀ (l : List ImportMatch),
    List.Perm (insertionSortAsc l) l := by
  intro l
  induction l with
  | nil => exact List.Perm.refl _
  | cons m ms ih => exact (perm_insAsc m (insertionSortAsc ms)).trans (ih.cons m)

theorem nodup_seven {A : Type} (S1 S2 S3 S4 S5 S6 S7 : List A)
    (n1 : S1.Nodup) (n2 : S2.Nodup) (n3 : S3.Nodup) (n4 : S4.Nodup)
    (n5 : S5.Nodup) (n6 : S6.Nodup) (n7 : S7.Nodup)
    (d12 : S1.Disjoint S2) (d13 : S1.Disjoint S3) (d14 : S1.Disjoint S4)
    (d15 : S1.Disjoint S5) (d16 : S1.Disjoint S6) (d17 : S1.Disjoint S7)
    (d23 : S2.Disjoint S3) (d24 : S2.Disjoint S4) (d25 : S2.Disjoint S5)
    (d26 : S2.Disjoint S6) (d27 : S2.Disjoint S7)
    (d34 : S3.Disjoint S4) (d35 : S3.Disjoint S5) (d36 : S3.Disjoint S6)
    (d37 : S3.Disjoint S7)
    (d45 : S4.Disjoint S5) (d46 : S4.Disjoint S6) (d47 : S4.Disjoint S7)
    (d56 : S5.Disjoint S6) (d57 : S5.Disjoint S7)
    (d67 : S6.Disjoint S7) :
    (((S1 ++ (S2 ++ (S3 ++ (S4 ++ S5)))) ++ S6) ++ S7).Nodup := by
  have hN45 : (S4 ++ S5).Nodup := n4.append n5 d45
  have hN345 : (S3 ++ (S4 ++ S5)).Nodup :=
    n3.append hN45 (List.disjoint_append_right.mpr ⟨d34, d35⟩)
  have hN2345 : (S2 ++ (S3 ++ (S4 ++ S5))).Nodup :=
    n2.append hN345 (List.disjoint_append_right.mpr
      ⟨d23, List.disjoint_append_right.mpr ⟨d24, d25⟩⟩)
  have hN1 : (S1 ++ (S2 ++ (S3 ++ (S4 ++ S5)))).Nodup :=
    n1.append hN2345 (List.disjoint_append_right.mpr
      ⟨d12, List.disjoint_append_right.mpr
        ⟨d13, List.disjoint_append_right.mpr ⟨d14, d15⟩⟩⟩)
  have hD6 : (S1 ++ (S2 ++ (S3 ++ (S4 ++ S5)))).Disjoint S6 :=
    List.disjoint_append_left.mpr
      ⟨d16, List.disjoint_append_left.mpr
        ⟨d26, List.disjoint_append_left.mpr
          ⟨d36, List.disjoint_append_left.mpr ⟨d46, d56⟩⟩⟩⟩
  have hN6 : ((S1 ++ (S2 ++ (S3 ++ (S4 ++ S5)))) ++ S6).Nodup := hN1.append n6 hD6
  have hD7 : ((S1 ++ (S2 ++ (S3 ++ (S4 ++ S5)))) ++ S6).Disjoint S7 :=
    List.disjoint_append_left.mpr
      ⟨List.disjoint_append_left.mpr
        ⟨d17, List.disjoint_append_left.mpr
          ⟨d27, List.disjoint_append_left.mpr
            ⟨d37, List.disjoint_append_left.mpr ⟨d47, d57⟩⟩⟩⟩, d67⟩
  exact hN6.append n7 hD7

theorem findImports_starts_nodup (content : List Char) :
    ((findImports content).map ImportMatch.startIndex).Nodup := by
  have hes6 : List.Sublist ((parseES6Imports content).map ImportMatch.startIndex)
      ((scanPattern matchNamed content).map RawMatch.startIndex ++
        ((scanPattern matchDefault content).map RawMatch.startIndex ++
          ((scanPattern matchNamespace content).map RawMatch.startIndex ++
            ((scanPattern matchMixed content).map RawMatch.startIndex ++
              (scanPattern matchSideEffect content).map RawMatch.startIndex)))) := by
    unfold parseES6Imports
    have h := map_filterMap_sublist
      (fun r => if isRelativeImport r.path then some (rawToMatch ImportType.es6 r) else none)
      RawMatch.startIndex ImportMatch.startIndex
      (by
        intro a b hab
        try dsimp only at hab
        split at hab
        · rw [← Option.some.inj hab]
          rfl
        · exact Option.noConfusion hab)
      ([matchNamed, matchDefault, matchNamespace, matchMixed, matchSideEffect].flatMap
        (fun m => scanPattern m content))
    simpa [List.flatMap_cons, List.flatMap_nil, List.map_append] using h
  have hcjs : List.Sublist ((parseCommonJSImports content).map ImportMatch.startIndex)
      ((scanPattern matchRequire content).map RawMatch.startIndex) := by
    unfold parseCommonJSImports
    exact map_filterMap_sublist _ RawMatch.startIndex ImportMatch.startIndex
      (by
        intro a b hab
        try dsimp only at hab
        split at hab
        · rw [← Option.some.inj hab]
          rfl
        · exact Option.noConfusion hab) _
  have hdyn : List.Sublist ((parseDynamicImports content).map ImportMatch.startIndex)
      ((scanPattern matchDynamic content).map RawMatch.startIndex) := by
    unfold parseDynamicImports
    exact map_filterMap_sublist _ RawMatch.startIndex ImportMatch.startIndex
      (by
        intro a b hab
        try dsimp only at hab
        split at hab
        · rw [← Option.some.inj hab]
          rfl
        · exact Option.noConfusion hab) _
  have hvalid : List.Sublist
      (((parseES6Imports content ++ parseCommonJSImports content ++
          parseDynamicImports content).filterMap
        (fun m => (validateImportPath m.importPath).map
          (fun vp => { m with importPath := vp }))).map ImportMatch.startIndex)
      ((parseES6Imports content).map ImportMatch.startIndex ++
        (parseCommonJSImports content).map ImportMatch.startIndex ++
        (parseDynamicImports content).map ImportMatch.startIndex) := by
    have h := map_filterMap_sublist
      (fun m => (validateImportPath m.importPath).map
        (fun vp : List Char => { m with importPath := vp }))
      ImportMatch.startIndex ImportMatch.startIndex
      (by
        intro a b hab
        try dsimp only at hab
        obtain ⟨vp, hv, hb⟩ := Option.map_eq_some.mp hab
        rw [← hb])
      (parseES6Imports content ++ parseCommonJSImports content ++ parseDynamicImports content)
    simpa [List.map_append] using h
  have n1 := scan_starts_nodup matchNamed content
  have n2 := scan_starts_nodup matchDefault content
  have n3 := scan_starts_nodup matchNamespace content
  have n4 := scan_starts_nodup matchMixed content
  have n5 := scan_starts_nodup matchSideEffect content
  have n6 := scan_starts_nodup matchRequire content
  have n7 := scan_starts_nodup matchDynamic content
  have d12 := scan_disjoint matchNamed matchDefault matchNamed_suffix matchDefault_suffix
    excl_named_default content
  have d13 := scan_disjoint matchNamed matchNamespace matchNamed_suffix matchNamespace_suffix
    excl_named_namespace content
  have d14 := scan_disjoint matchNamed matchMixed matchNamed_suffix matchMixed_suffix
    excl_named_mixed content
  have d15 := scan_disjoint matchNamed matchSideEffect matchNamed_suffix matchSideEffect_suffix
    excl_named_side content
  have d16 := (scan_disjoint matchRequire matchNamed matchRequire_suffix matchNamed_suffix
    (fun s x y hx hy => excl_require_named s x y hx hy) content).symm
  have d17 := scan_disjoint matchNamed matchDynamic matchNamed_suffix matchDynamic_suffix
    excl_named_dynamic content
  have d23 := scan_disjoint matchDefault matchNamespace matchDefault_suffix
    matchNamespace_suffix excl_default_namespace content
  have d24 := scan_disjoint matchDefault matchMixed matchDefault_suffix matchMixed_suffix
    excl_default_mixed content
  have d25 := scan_disjoint matchDefault matchSideEffect matchDefault_suffix
    matchSideEffect_suffix excl_default_side content
  have d26 := (scan_disjoint matchRequire matchDefault matchRequire_suffix matchDefault_suffix
    excl_require_default content).symm
  have d27 := scan_disjoint matchDefault matchDynamic matchDefault_suffix matchDynamic_suffix
    excl_default_dynamic content
  have d34 := scan_disjoint matchNamespace matchMixed matchNamespace_suffix matchMixed_suffix
    excl_namespace_mixed content
  have d35 := scan_disjoint matchNamespace matchSideEffect matchNamespace_suffix
    matchSideEffect_suffix excl_namespace_side content
  have d36 := (scan_disjoint matchRequire matchNamespace matchRequire_suffix
    matchNamespace_suffix excl_require_namespace content).symm
  have d37 := scan_disjoint matchNamespace matchDynamic matchNamespace_suffix
    matchDynamic_suffix excl_namespace_dynamic content
  have d45 := scan_disjoint matchMixed matchSideEffect matchMixed_suffix
    matchSideEffect_suffix excl_mixed_side content
  have d46 := (scan_disjoint matchRequire matchMixed matchRequire_suffix matchMixed_suffix
    excl_require_mixed content).symm
  have d47 := scan_disjoint matchMixed matchDynamic matchMixed_suffix matchDynamic_suffix
    excl_mixed_dynamic content
  have d56 := (scan_disjoint matchRequire matchSideEffect matchRequire_suffix
    matchSideEffect_suffix excl_require_side content).symm
  have d57 := scan_disjoint matchSideEffect matchDynamic matchSideEffect_suffix
    matchDynamic_suffix excl_side_dynamic content
  have d67 := scan_disjoint matchRequire matchDynamic matchRequire_suffix matchDynamic_suffix
    excl_require_dynamic content
  have hbig := nodup_seven _ _ _ _ _ _ _ n1 n2 n3 n4 n5 n6 n7 d12 d13 d14 d15 d16 d17
    d23 d24 d25 d26 d27 d34 d35 d36 d37 d45 d46 d47 d56 d57 d67
  have htrans := hvalid.trans ((hes6.append hcjs).append hdyn)
  have hvn := List.Nodup.sublist htrans hbig
  have hperm := perm_insertionSortAsc
    ((parseES6Imports content ++ parseCommonJSImports content ++
      parseDynamicImports content).filterMap
      (fun m => (validateImportPath m.importPath).map (fun vp => { m with importPath := vp })))
  have hsortn : (((insertionSortAsc
      ((parseES6Imports content ++ parseCommonJSImports content ++
        parseDynamicImports content).filterMap
        (fun m => (validateImportPath m.importPath).map
          (fun vp => { m with importPath := vp })))).map ImportMatch.startIndex)).Nodup :=
    ((hperm.map ImportMatch.startIndex).nodup_iff).mpr hvn
  have hfi : findImports content = dedupeAdj (insertionSortAsc
      ((parseES6Imports content ++ parseCommonJSImports content ++
        parseDynamicImports content).filterMap
        (fun m => (validateImportPath m.importPath).map
          (fun vp => { m with importPath := vp })))) := rfl
  rw [hfi]
  exact List.Nodup.sublist ((dedupeAdj_sublist _).map ImportMatch.startIndex) hsortn


/-- C5: for every content string, `findImports` returns a list sorted
ascending by start offset with no two entries sharing a
`(startIndex, importPath)` key; the output is a sublist of the sorted
validated matches (deduplication only deletes later repeats), and every
validated match is represented in the output under its key (the first
occurrence is kept). Key distinctness holds because each regex pass
yields strictly increasing start offsets and the seven patterns are
pairwise exclusive at any given offset. -/
theorem claim_C5_sortedNodup (content : List Char) :
    List.Pairwise (fun a b => a.startIndex ≤ b.startIndex) (findImports content) ∧
    ((findImports content).map (fun im => (im.startIndex, im.importPath))).Nodup ∧
    List.Sublist (findImports content) (insertionSortAsc
      ((parseES6Imports content ++ parseCommonJSImports content ++
        parseDynamicImports content).filterMap
        (fun m => (validateImportPath m.importPath).map
          (fun vp => { m with importPath := vp })))) ∧
    (∀ x ∈ (parseES6Imports content ++ parseCommonJSImports content ++
        parseDynamicImports content).filterMap
        (fun m => (validateImportPath m.importPath).map
          (fun vp => { m with importPath := vp })),
      ∃ y ∈ findImports content,
        y.startIndex = x.startIndex ∧ y.importPath = x.importPath) := by
  have hfi : findImports content = dedupeAdj (insertionSortAsc
      ((parseES6Imports content ++ parseCommonJSImports content ++
        parseDynamicImports content).filterMap
        (fun m => (validateImportPath m.importPath).map
          (fun vp => { m with importPath := vp })))) := rfl
  refine ⟨?_, ?_, ?_, ?_⟩
  · rw [hfi]
    exact List.Pairwise.sublist (dedupeAdj_sublist _) (sorted_insertionSortAsc _)
  · have h1 := findImports_starts_nodup content
    have h2 : (findImports content).map ImportMatch.startIndex =
        ((findImports content).map
          (fun im => (im.startIndex, im.importPath))).map Prod.fst := by
      rw [List.map_map]
      rfl
    rw [h2] at h1
    exact List.Nodup.of_map _ h1
  · rw [hfi]
    exact dedupeAdj_sublist _
  · intro x hx
    rw [hfi]
    exact dedupeAdj_key x.startIndex x.importPath _
      ⟨x, (mem_insertionSortAsc x _).mpr hx, rfl, rfl⟩

/-- Witness for C5 at a concrete side-effect import. -/
theorem claim_C5_sortedNodup_witness :
    ∃ y ∈ findImports contentC4w,
      y.startIndex = imC4w.startIndex ∧ y.importPath = imC4w.importPath :=
  (claim_C5_sortedNodup contentC4w).2.2.2 imC4w (by decide)

end IPC
